import Mathlib

/-! Operation definitions of pcflib (`pcflib/opdefs.c`).

A shallow embedding of the instruction semantics of the PCF interpreter.

* Unsigned C integers are natural numbers; every addition, subtraction and left
  shift of the source is reduced modulo `2^32`.
* The wire bank `st->wires` is a map from addresses to wire cells.
* `assert` / `abort` become an error result carrying the state at the abort.
* The function pointers `st->callback`, `st->copy_key`, `st->delete_key`, the
  label table and the two constant keys are collected in `PCFEnv`.  Each call of
  one of the three functions is recorded, newest first, in the `log` of the state;
  `copy_key` may depend on that history (it allocates), the callback sees the
  whole state it is handed.
* A key pointer is a natural number, `0` being the null pointer.
-/

namespace PCF

/-- Truncation to a 32-bit unsigned word (`uint32_t`). -/
def u32 (n : Nat) : Nat := n % 4294967296

/-- Subtraction of 32-bit unsigned words, wrapping below zero as in C. -/
def u32sub (a b : Nat) : Nat := (a % 4294967296 + 4294967296 - b % 4294967296) % 4294967296

/-- Modelled from the spec: the flag constants `KNOWN_WIRE` and `UNKNOWN_WIRE` are
declared in the header `opdefs.h`, which is not among the sources; a wire flag is
one of the two. -/
inductive WireFlag
  | KNOWN_WIRE
  | UNKNOWN_WIRE
deriving DecidableEq, Repr

/-- Modelled from the spec: the provenance tags `TAG_*` of a gate descriptor are
declared in the missing header; the spec lists Internal, InputA, InputB, OutputA
and OutputB. -/
inductive Tag
  | TAG_INTERNAL
  | TAG_INPUT_A
  | TAG_INPUT_B
  | TAG_OUTPUT_A
  | TAG_OUTPUT_B
deriving DecidableEq, Repr

/-- One cell of the wire bank (`st->wires[i]`): `value`, `flags` and the key pointer
`keydata` (`0` when the wire holds no key). -/
structure wire where
  value : Nat
  flags : WireFlag
  keydata : Nat
deriving DecidableEq, Repr

/-- Gate descriptor `struct PCFGate`. -/
structure PCFGate where
  wire1 : Nat
  wire2 : Nat
  reswire : Nat
  truth_table : Nat
  tag : Tag
deriving DecidableEq, Repr

/-- Record of the call stack (`struct activation_record`); the link `rest` is the
tail of the list that holds the record. -/
structure activation_record where
  ret_pc : Nat
deriving DecidableEq, Repr

/-- Target of `st->curgate`: null, the file-level scratch descriptor `_gate`, or the
descriptor `st->input_g` embedded in the state. -/
inductive GatePtr
  | null
  | global_gate
  | input_g
deriving DecidableEq, Repr

/-- One call of an external function, as recorded in the log of the state:
`delete_key k`, `copy_key k` returning `r`, or the callback on descriptor `g`
returning `r`. -/
inductive Event
  | deleted (k : Nat)
  | copied (k : Nat) (r : Nat)
  | called (g : PCFGate) (r : Nat)
deriving DecidableEq, Repr

/-- Interpreter state `struct PCFState`, without its function pointers and tables
(see `PCFEnv`).  The field `gate_scratch` is the file-level variable `_gate`. -/
structure PCFState where
  PC : Nat
  base : Nat
  wires : Nat → wire
  call_stack : List activation_record
  curgate : GatePtr
  gate_scratch : PCFGate
  input_g : PCFGate
  inp_i : Nat
  inp_idx : Nat
  done : Int
  log : List Event

/-- The read-only members of `struct PCFState`: the label table `st->labels`
(name to instruction index), the evaluator `st->callback`, the key cloning function
`st->copy_key` (its first argument is the history of external calls so far) and the
array `st->constant_keys`. -/
structure PCFEnv where
  labels : String → Option Nat
  callback : PCFState → PCFGate → Nat
  copy_key : List Event → Nat → Nat
  constant_keys : Nat → Nat

/-- Modelled from the spec: the C code stops at a failed `assert` or at `abort()`;
the kinds of failure carry the names of the spec's error taxonomy (`MissingKey` is
the fatal invariant violation of a delegated gate whose operand has no key). -/
inductive Err
  | UndefinedLabel
  | WireTypeViolation
  | OutOfRangeTruthTable
  | GateReentrancy
  | MissingKey
deriving DecidableEq, Repr

/-- An aborted operation: the kind of failure and the state reached when it
happened. -/
structure Fault where
  err : Err
  st : PCFState

/-- Symbol table entry `ENTRY` of `search.h`, reduced to its key. -/
structure ENTRY where
  key : String
deriving DecidableEq, Repr

/-- Payload of `const_op`. -/
structure const_op_data where
  dest : Nat
  value : Nat
deriving DecidableEq, Repr

/-- Payload of `bits_op`; `ndests` is the length of the list `dests`. -/
structure bits_op_data where
  source : Nat
  dests : List Nat
deriving DecidableEq, Repr

/-- Payload of `call_op`. -/
structure call_op_data where
  target : ENTRY
  newbase : Nat
deriving DecidableEq, Repr

/-- Payload of the three copy operations. -/
structure copy_op_data where
  dest : Nat
  source : Nat
  width : Nat
deriving DecidableEq, Repr

/-! ## Field assignments and external calls -/

/-- Assignment `st->wires[a].value = v`. -/
def PCFState.set_value (st : PCFState) (a v : Nat) : PCFState :=
  { st with wires := fun x => if x = a then { st.wires x with value := v } else st.wires x }

/-- Assignment `st->wires[a].flags = f`. -/
def PCFState.set_flags (st : PCFState) (a : Nat) (f : WireFlag) : PCFState :=
  { st with wires := fun x => if x = a then { st.wires x with flags := f } else st.wires x }

/-- Assignment `st->wires[a].keydata = k`. -/
def PCFState.set_keydata (st : PCFState) (a k : Nat) : PCFState :=
  { st with wires := fun x => if x = a then { st.wires x with keydata := k } else st.wires x }

/-- Statement `if(st->wires[a].keydata != 0) st->delete_key(st->wires[a].keydata);`. -/
def delete_if_set (st : PCFState) (a : Nat) : PCFState :=
  { st with log := if (st.wires a).keydata ≠ 0 then Event.deleted (st.wires a).keydata :: st.log
                   else st.log }

/-- Value returned by `st->copy_key(k)` in state `st`. -/
def copy_key_result (E : PCFEnv) (st : PCFState) (k : Nat) : Nat := E.copy_key st.log k

/-- State after the call `st->copy_key(k)`: the call is logged. -/
def after_copy_key (E : PCFEnv) (st : PCFState) (k : Nat) : PCFState :=
  { st with log := Event.copied k (E.copy_key st.log k) :: st.log }

/-- State after the call `st->callback(st, g)`: the call is logged. -/
def after_callback (E : PCFEnv) (st : PCFState) (g : PCFGate) : PCFState :=
  { st with log := Event.called g (E.callback st g) :: st.log }

/-- Number of callback invocations recorded in a log. -/
def callback_count : List Event → Nat
  | [] => 0
  | Event.called _ _ :: l => callback_count l + 1
  | _ :: l => callback_count l

/-! ## The operations -/

/-- Operation `nop`. -/
def nop (st : PCFState) : PCFState := st

/-- Operation `initbase_op`: jump to the label `main` and set the frame base. -/
def initbase_op (E : PCFEnv) (st : PCFState) (data : Nat) : Except Fault PCFState :=
  match E.labels "main" with
  | none => Except.error ⟨Err.UndefinedLabel, st⟩
  | some target => Except.ok { st with PC := target, base := data }

/-- Operation `mkptr_op`. -/
def mkptr_op (st : PCFState) (idx : Nat) : Except Fault PCFState :=
  if (st.wires (u32 (idx + st.base))).flags ≠ WireFlag.KNOWN_WIRE then
    Except.error ⟨Err.WireTypeViolation, st⟩
  else
    Except.ok (st.set_value (u32 (idx + st.base))
      (u32 ((st.wires (u32 (idx + st.base))).value + st.base)))

/-- Operation `const_op`. -/
def const_op (st : PCFState) (data : const_op_data) : PCFState :=
  let idx := u32 (data.dest + st.base)
  let st1 := st.set_value idx data.value
  let st2 := delete_if_set st1 idx
  let st3 := st2.set_keydata idx 0
  st3.set_flags idx WireFlag.KNOWN_WIRE

/-- Loop of `bits_op` over the remaining destinations, `cval` being the part of the
source value not yet consumed. -/
def bits_loop (E : PCFEnv) : List Nat → Nat → PCFState → PCFState
  | [], _, st => st
  | d :: ds, cval, st =>
    let a := u32 (d + st.base)
    let st1 := st.set_value a (cval &&& 1)
    let st2 := st1.set_flags a WireFlag.KNOWN_WIRE
    let st3 := delete_if_set st2 a
    let k := copy_key_result E st3 (E.constant_keys (cval &&& 1))
    let st4 := after_copy_key E st3 (E.constant_keys (cval &&& 1))
    let st5 := st4.set_keydata a k
    bits_loop E ds (cval >>> 1) st5

/-- Operation `bits_op`. -/
def bits_op (E : PCFEnv) (st : PCFState) (data : bits_op_data) : Except Fault PCFState :=
  let s_idx := u32 (data.source + st.base)
  if (st.wires s_idx).flags ≠ WireFlag.KNOWN_WIRE then
    Except.error ⟨Err.WireTypeViolation, st⟩
  else
    Except.ok (bits_loop E data.dests (st.wires s_idx).value st)

/-- Loop `for(i = 1; i <= 32; i++)` of the input roles, with `n` iterations left:
it shifts the argument wires into `idx`, most significant first.  The "alice"
branch asserts only `value < 2`; the "bob" branch also asserts the flag
(`chk = true`). -/
def input_arg_loop (st : PCFState) (newbase : Nat) (chk : Bool) :
    Nat → Nat → Nat → Except Fault Nat
  | 0, _, idx => Except.ok idx
  | n + 1, i, idx =>
    let idx1 := u32 (idx <<< 1)
    let w := st.wires (u32sub (u32 (st.base + newbase)) i)
    if ¬ w.value < 2 then Except.error ⟨Err.WireTypeViolation, st⟩
    else if chk = true ∧ w.flags ≠ WireFlag.KNOWN_WIRE then
      Except.error ⟨Err.WireTypeViolation, st⟩
    else input_arg_loop st newbase chk n (i + 1) (u32 (idx1 + w.value))

/-- First part of an input role: when `st->inp_i == 0` the argument is read into
`st->inp_idx`. -/
def input_arg (st : PCFState) (newbase : Nat) (chk : Bool) : Except Fault PCFState :=
  if st.inp_i = 0 then
    match input_arg_loop st newbase chk 32 1 0 with
    | Except.error f => Except.error f
    | Except.ok idx => Except.ok { st with inp_idx := idx }
  else Except.ok st

/-- Descriptor written into `st->input_g` by an input role in round `i`. -/
def input_gate (st : PCFState) (newbase i : Nat) (tag : Tag) : PCFGate :=
  { wire1 := u32 (st.inp_idx + i), wire2 := u32 (st.inp_idx + i),
    reswire := u32 (st.base + newbase + i), truth_table := 5, tag := tag }

/-- Second part of an input role: one round when `st->inp_i < 32`, otherwise the
cursor is reset. -/
def input_round (E : PCFEnv) (st : PCFState) (newbase : Nat) (tag : Tag) : PCFState :=
  if st.inp_i < 32 then
    let i := st.inp_i
    let g := input_gate st newbase i tag
    let st1 := { st with inp_i := u32 (st.inp_i + 1), input_g := g }
    let st2 := delete_if_set st1 g.reswire
    let r := E.callback st2 g
    let st3 := after_callback E st2 g
    let k := copy_key_result E st3 r
    let st4 := after_copy_key E st3 r
    let st5 := st4.set_keydata g.reswire k
    let st6 := st5.set_flags g.reswire WireFlag.UNKNOWN_WIRE
    { st6 with curgate := GatePtr.input_g, PC := u32sub st6.PC 1 }
  else { st with inp_i := 0 }

/-- Descriptor written into `st->input_g` by an output role in round `i`. -/
def output_gate (st : PCFState) (newbase i : Nat) (tag : Tag) : PCFGate :=
  let a := u32sub (u32 (st.base + newbase)) (u32sub 32 i)
  { wire1 := a, wire2 := a, reswire := a, truth_table := 5, tag := tag }

/-- Body of an output role. -/
def output_round (E : PCFEnv) (st : PCFState) (newbase : Nat) (tag : Tag) : PCFState :=
  if st.inp_i < 32 then
    let i := st.inp_i
    let g := output_gate st newbase i tag
    let st1 := { st with inp_i := u32 (st.inp_i + 1), input_g := g }
    let st2 := after_callback E st1 g
    { st2 with curgate := GatePtr.input_g, PC := u32sub st2.PC 1 }
  else { st with inp_i := 0 }

/-- General branch of `call_op`: push an activation record, look the label up, jump
and move the frame base.  (`malloc` is taken to succeed.) -/
def call_general (E : PCFEnv) (st : PCFState) (data : call_op_data) : Except Fault PCFState :=
  let st1 := { st with call_stack := { ret_pc := st.PC } :: st.call_stack }
  match E.labels data.target.key with
  | none => Except.error ⟨Err.UndefinedLabel, st1⟩
  | some target => Except.ok { st1 with PC := target, base := u32 (st1.base + data.newbase) }

/-- Operation `call_op`. -/
def call_op (E : PCFEnv) (st : PCFState) (data : call_op_data) : Except Fault PCFState :=
  if data.target.key = "alice" then
    match input_arg st data.newbase false with
    | Except.error f => Except.error f
    | Except.ok st1 => Except.ok (input_round E st1 data.newbase Tag.TAG_INPUT_A)
  else if data.target.key = "bob" then
    match input_arg st data.newbase true with
    | Except.error f => Except.error f
    | Except.ok st1 => Except.ok (input_round E st1 data.newbase Tag.TAG_INPUT_B)
  else if data.target.key = "output_alice" then
    Except.ok (output_round E st data.newbase Tag.TAG_OUTPUT_A)
  else if data.target.key = "output_bob" then
    Except.ok (output_round E st data.newbase Tag.TAG_OUTPUT_B)
  else call_general E st data

/-- Loop of `gate_op` that unpacks the truth table: `n` bits of `tab`, least
significant first. -/
def truth_bits : Nat → Nat → List Nat
  | 0, _ => []
  | n + 1, tab => (tab &&& 1) :: truth_bits n (tab >>> 1)

/-- State in which `gate_op` calls the callback on the descriptor `g`: `st->curgate`
points at the scratch descriptor `_gate`, which holds `g`. -/
def gate_callback_state (st1 : PCFState) (g : PCFGate) : PCFState :=
  { st1 with curgate := GatePtr.global_gate, gate_scratch := g }

/-- Delegated branch of `gate_op` once both operands are known to hold keys: the
scratch descriptor is filled with `g`, the callback is called on it and its result
is cloned into the result wire, which becomes Unknown. -/
def gate_delegate (E : PCFEnv) (st1 : PCFState) (g : PCFGate) : PCFState :=
  let st2 := gate_callback_state st1 g
  let r := E.callback st2 g
  let st3 := after_callback E st2 g
  let k := copy_key_result E st3 r
  let st4 := after_copy_key E st3 r
  (st4.set_keydata g.reswire k).set_flags g.reswire WireFlag.UNKNOWN_WIRE

/-- Operation `gate_op`. -/
def gate_op (E : PCFEnv) (st : PCFState) (data : PCFGate) : Except Fault PCFState :=
  let op1idx := u32 (data.wire1 + st.base)
  let op2idx := u32 (data.wire2 + st.base)
  let destidx := u32 (data.reswire + st.base)
  let bits := truth_bits 4 (data.truth_table % 256)
  if st.curgate ≠ GatePtr.null then Except.error ⟨Err.GateReentrancy, st⟩
  else if ¬ data.truth_table < 16 then Except.error ⟨Err.OutOfRangeTruthTable, st⟩
  else
    let st1 := (delete_if_set st destidx).set_keydata destidx 0
    if (st1.wires op1idx).flags ≠ WireFlag.KNOWN_WIRE
        ∨ (st1.wires op2idx).flags ≠ WireFlag.KNOWN_WIRE then
      if ¬ ((st1.wires op1idx).keydata ≠ 0 ∧ (st1.wires op2idx).keydata ≠ 0) then
        Except.error ⟨Err.MissingKey, st1⟩
      else
        Except.ok (gate_delegate E st1
          { wire1 := op1idx, wire2 := op2idx, reswire := destidx,
            truth_table := data.truth_table, tag := Tag.TAG_INTERNAL })
    else
      let v1 := (st1.wires op1idx).value
      let v2 := (st1.wires op2idx).value
      if ¬ (v1 < 2 ∧ v2 < 2) then Except.error ⟨Err.WireTypeViolation, st1⟩
      else if ¬ (v1 + 2 * v2 < 4) then Except.error ⟨Err.WireTypeViolation, st1⟩
      else if ¬ (bits.getD (v1 + 2 * v2) 0 < 2) then Except.error ⟨Err.WireTypeViolation, st1⟩
      else
        let b := bits.getD (v1 + 2 * v2) 0
        let k := copy_key_result E st1 (E.constant_keys b)
        let st2 := after_copy_key E st1 (E.constant_keys b)
        let st3 := st2.set_keydata destidx k
        let st4 := st3.set_value destidx (bits.getD ((st3.wires op1idx).value
                      + 2 * (st3.wires op2idx).value) 0)
        Except.ok (st4.set_flags destidx WireFlag.KNOWN_WIRE)

/-- Loop of `copy_op` (lines 277 to 289 of the source), from absolute source start
`source` to absolute destination start `dest`; `i` counts up, `n` iterations are
left. -/
def copy_loop (E : PCFEnv) (dest source : Nat) : Nat → Nat → PCFState → PCFState
  | 0, _, st => st
  | n + 1, i, st =>
    let d := u32 (dest + i)
    let s := u32 (source + i)
    let st1 := delete_if_set st d
    let st2 :=
      if (st1.wires s).keydata ≠ 0 then
        (after_copy_key E st1 (st1.wires s).keydata).set_keydata d
          (copy_key_result E st1 (st1.wires s).keydata)
      else st1.set_keydata d 0
    let st3 := st2.set_value d (st2.wires s).value
    let st4 := st3.set_flags d (st3.wires s).flags
    copy_loop E dest source n (i + 1) st4

/-- Body of the copy loops for the absolute wire addresses `d` (destination) and `s`
(source): the state after one iteration. -/
def copy_iter (E : PCFEnv) (d s : Nat) (st : PCFState) : PCFState :=
  let st1 := delete_if_set st d
  let st2 :=
    if (st1.wires s).keydata ≠ 0 then
      (after_copy_key E st1 (st1.wires s).keydata).set_keydata d
        (copy_key_result E st1 (st1.wires s).keydata)
    else st1.set_keydata d 0
  let st3 := st2.set_value d (st2.wires s).value
  st3.set_flags d (st3.wires s).flags

/-- Operation `copy_op`. -/
def copy_op (E : PCFEnv) (st : PCFState) (data : copy_op_data) : PCFState :=
  copy_loop E (u32 (data.dest + st.base)) (u32 (data.source + st.base)) data.width 0 st

/-- Loop of `indir_copy_op` (lines 298 to 310 of the source), from absolute source
start `source` to absolute destination start `dest`. -/
def indir_copy_loop (E : PCFEnv) (dest source : Nat) : Nat → Nat → PCFState → PCFState
  | 0, _, st => st
  | n + 1, i, st =>
    let st1 := delete_if_set st (u32 (dest + i))
    let st2 :=
      if (st1.wires (u32 (source + i))).keydata ≠ 0 then
        (after_copy_key E st1 (st1.wires (u32 (source + i))).keydata).set_keydata
          (u32 (dest + i)) (copy_key_result E st1 (st1.wires (u32 (source + i))).keydata)
      else st1.set_keydata (u32 (dest + i)) 0
    let st3 := st2.set_value (u32 (dest + i)) (st2.wires (u32 (source + i))).value
    let st4 := st3.set_flags (u32 (dest + i)) (st3.wires (u32 (source + i))).flags
    indir_copy_loop E dest source n (i + 1) st4

/-- Operation `indir_copy_op`: the destination start is read from a wire. -/
def indir_copy_op (E : PCFEnv) (st : PCFState) (data : copy_op_data) : PCFState :=
  indir_copy_loop E (st.wires (u32 (data.dest + st.base))).value (u32 (data.source + st.base))
    data.width 0 st

/-- Loop of `copy_indir_op` (lines 319 to 331 of the source), from absolute source
start `source` to absolute destination start `dest`. -/
def copy_indir_loop (E : PCFEnv) (dest source : Nat) : Nat → Nat → PCFState → PCFState
  | 0, _, st => st
  | n + 1, i, st =>
    let st1 := delete_if_set st (u32 (dest + i))
    let st2 :=
      if (st1.wires (u32 (source + i))).keydata ≠ 0 then
        (after_copy_key E st1 (st1.wires (u32 (source + i))).keydata).set_keydata
          (u32 (dest + i)) (copy_key_result E st1 (st1.wires (u32 (source + i))).keydata)
      else st1.set_keydata (u32 (dest + i)) 0
    let st3 := st2.set_value (u32 (dest + i)) (st2.wires (u32 (source + i))).value
    let st4 := st3.set_flags (u32 (dest + i)) (st3.wires (u32 (source + i))).flags
    copy_indir_loop E dest source n (i + 1) st4

/-- Operation `copy_indir_op`: the source start is read from a wire. -/
def copy_indir_op (E : PCFEnv) (st : PCFState) (data : copy_op_data) : PCFState :=
  copy_indir_loop E (u32 (data.dest + st.base)) (st.wires (u32 (data.source + st.base))).value
    data.width 0 st

/-- Operation `ret_op`. -/
def ret_op (st : PCFState) : PCFState :=
  match st.call_stack with
  | [] => { st with done := -1 }
  | rec :: rest => { st with call_stack := rest, PC := rec.ret_pc }

/-- Decoded instruction `struct PCFOP`: the operation and its payload. -/
inductive PCFOP
  | nop
  | initbase (data : Nat)
  | mkptr (idx : Nat)
  | const (data : const_op_data)
  | bits (data : bits_op_data)
  | call (data : call_op_data)
  | gate (data : PCFGate)
  | copy (data : copy_op_data)
  | indir_copy (data : copy_op_data)
  | copy_indir (data : copy_op_data)
  | ret

/-- The call `op->op(st, op)`. -/
def PCFOP.exec (E : PCFEnv) (st : PCFState) : PCFOP → Except Fault PCFState
  | PCFOP.nop => Except.ok (PCF.nop st)
  | PCFOP.initbase d => initbase_op E st d
  | PCFOP.mkptr i => mkptr_op st i
  | PCFOP.const d => Except.ok (const_op st d)
  | PCFOP.bits d => bits_op E st d
  | PCFOP.call d => call_op E st d
  | PCFOP.gate d => gate_op E st d
  | PCFOP.copy d => Except.ok (copy_op E st d)
  | PCFOP.indir_copy d => Except.ok (indir_copy_op E st d)
  | PCFOP.copy_indir d => Except.ok (copy_indir_op E st d)
  | PCFOP.ret => Except.ok (ret_op st)

/-- Modelled from the spec: the dispatcher is not in `opdefs.c`; it executes the
operation of an instruction and then advances the program counter by one. -/
def dispatch (E : PCFEnv) (op : PCFOP) (st : PCFState) : Except Fault PCFState :=
  match op.exec E st with
  | Except.error f => Except.error f
  | Except.ok st1 => Except.ok { st1 with PC := u32 (st1.PC + 1) }

/-- Repeated dispatch of one instruction, `n` times. -/
def dispatch_n (E : PCFEnv) (op : PCFOP) : Nat → PCFState → Except Fault PCFState
  | 0, st => Except.ok st
  | n + 1, st =>
    match dispatch_n E op n st with
    | Except.error f => Except.error f
    | Except.ok st1 => dispatch E op st1

/-- Execution of a list of instructions one after the other, each through the
dispatcher. -/
def run_ops (E : PCFEnv) : List PCFOP → PCFState → Except Fault PCFState
  | [], st => Except.ok st
  | op :: ops, st =>
    match dispatch E op st with
    | Except.error f => Except.error f
    | Except.ok st1 => run_ops E ops st1

/-! ## Quantities named by the properties -/

/-- A call takes the general branch of `call_op` when its target is none of the four
role names. -/
def is_general (d : call_op_data) : Prop :=
  d.target.key ≠ "alice" ∧ d.target.key ≠ "bob"
    ∧ d.target.key ≠ "output_alice" ∧ d.target.key ≠ "output_bob"

/-- The instruction is a return, or a general call whose label is in the label
table. -/
def call_or_ret (E : PCFEnv) : PCFOP → Prop
  | PCFOP.call d => is_general d ∧ ∃ t, E.labels d.target.key = some t
  | PCFOP.ret => True
  | _ => False

/-- Sum of the frame sizes of the calls in a list of instructions. -/
def frame_sizes : List PCFOP → Nat
  | [] => 0
  | PCFOP.call d :: ops => d.newbase + frame_sizes ops
  | _ :: ops => frame_sizes ops

/-- Tag used by the output role named `key`: `TAG_OUTPUT_A` for "output_alice",
`TAG_OUTPUT_B` otherwise ("output_bob"). -/
def output_tag (key : String) : Tag :=
  if key = "output_alice" then Tag.TAG_OUTPUT_A else Tag.TAG_OUTPUT_B


/-- Address `base + newbase - 32 + j` of argument wire `j` of a role call, in 32-bit
arithmetic. -/
def arg_addr (st : PCFState) (newbase j : Nat) : Nat :=
  u32sub (u32 (st.base + newbase)) (32 - j)

/-- The number spelled by the 32 argument wires of a role call, the wire at
`base + newbase - 1` being the most significant bit. -/
def arg_sum (st : PCFState) (newbase : Nat) : Nat :=
  ∑ j in Finset.range 32, (st.wires (arg_addr st newbase j)).value * 2 ^ j

/-- Tag used by the input role named `key`: `TAG_INPUT_A` for "alice", `TAG_INPUT_B`
otherwise ("bob"). -/
def input_tag (key : String) : Tag :=
  if key = "alice" then Tag.TAG_INPUT_A else Tag.TAG_INPUT_B

/-- The invariant of the wire bank: every wire flagged Unknown holds a key. -/
def wires_keyed (ws : Nat → wire) : Prop :=
  ∀ x, (ws x).flags = WireFlag.UNKNOWN_WIRE → (ws x).keydata ≠ 0

/-- Modelled from the spec: the key lifecycle operations are external.  The live
handles after a log (newest call first), `H0` being the handles live before it:
`copy_key` makes the handle it returns live, `delete_key` ends the handle it is
given, the callback changes nothing (the key it returns is borrowed). -/
def live_handles (H0 : List Nat) : List Event → List Nat
  | [] => H0
  | Event.deleted k :: l => (live_handles H0 l).filter (fun h => h ≠ k)
  | Event.copied _ r :: l => r :: live_handles H0 l
  | Event.called _ _ :: l => live_handles H0 l

/-- Key pointer held by each wire of a state. -/
def key_of (st : PCFState) : Nat → Nat := fun a => (st.wires a).keydata

/-- The live handles `H` are exactly the keys held by wires, each held by one wire:
no handle is listed twice, a handle is live if and only if it is the (non-null) key
of some wire, and two wires never hold the same key. -/
def handles_owned (H : List Nat) (keys : Nat → Nat) : Prop :=
  H.Nodup ∧ (∀ h, h ∈ H ↔ (h ≠ 0 ∧ ∃ a, keys a = h))
    ∧ (∀ a b, keys a = keys b → keys a ≠ 0 → a = b)

/-- Ownership invariant of a state: the handles live after its log are exactly the
keys held by its wires, each held by one wire. -/
def keys_owned (H0 : List Nat) (st : PCFState) : Prop :=
  handles_owned (live_handles H0 st.log) (key_of st)

/-- The clone function returns a fresh handle: not null and not live at the time of
the call. -/
def fresh_copy (E : PCFEnv) (H0 : List Nat) : Prop :=
  ∀ log k, E.copy_key log k ≠ 0 ∧ E.copy_key log k ∉ live_handles H0 log

/-- A number above every handle created in a log, and at least 1000. -/
def log_bound : List Event → Nat
  | [] => 1000
  | Event.copied _ r :: l => max (r + 1) (log_bound l)
  | _ :: l => log_bound l

/-! ## Sample data -/

/-- Sample environment: labels `main` and `f`, a callback returning `100 + reswire`,
a clone function returning `1000 + k`, constant keys `11` and `12`. -/
def demoEnv : PCFEnv :=
  { labels := fun s => if s = "main" then some 0 else if s = "f" then some 10 else none,
    callback := fun _ g => 100 + g.reswire,
    copy_key := fun _ k => 1000 + k,
    constant_keys := fun b => 11 + b }

/-- Sample state: program counter 4, frame base 0; wire 0 is Known with value 1,
wire 7 Known with value 5, wires 8, 9 and 40 are Unknown with keys 77, 78 and 79 and
values 0, 1 and 0, every other wire is Known with value 0 and no key. -/
def demoState : PCFState :=
  { PC := 4, base := 0,
    wires := fun x =>
      if x = 0 then ⟨1, WireFlag.KNOWN_WIRE, 0⟩
      else if x = 7 then ⟨5, WireFlag.KNOWN_WIRE, 0⟩
      else if x = 8 then ⟨0, WireFlag.UNKNOWN_WIRE, 77⟩
      else if x = 9 then ⟨1, WireFlag.UNKNOWN_WIRE, 78⟩
      else if x = 40 then ⟨0, WireFlag.UNKNOWN_WIRE, 79⟩
      else ⟨0, WireFlag.KNOWN_WIRE, 0⟩,
    call_stack := [], curgate := GatePtr.null,
    gate_scratch := ⟨0, 0, 0, 0, Tag.TAG_INTERNAL⟩, input_g := ⟨0, 0, 0, 0, Tag.TAG_INTERNAL⟩,
    inp_i := 0, inp_idx := 0, done := 0, log := [] }

/-- Sample environment with an allocating clone function: the handle returned is
above every handle created before. -/
def freshEnv : PCFEnv :=
  { labels := fun s => if s = "main" then some 0 else none,
    callback := fun _ g => 100 + g.reswire,
    copy_key := fun log _ => log_bound log,
    constant_keys := fun b => 11 + b }

/-- Sample instruction sequence: a constant load into wire 8, a gate on the wires 9
and 40 with result wire 20, and a copy of the wires 20, 21 to the wires 30, 31. -/
def demoOps : List PCFOP :=
  [PCFOP.const ⟨8, 1⟩, PCFOP.gate ⟨9, 40, 20, 6, Tag.TAG_INTERNAL⟩, PCFOP.copy ⟨30, 20, 2⟩]

/-! ## Basic facts about the field assignments -/

@[simp] theorem set_value_wires (st : PCFState) (a v x : Nat) :
    (st.set_value a v).wires x
      = if x = a then { st.wires x with value := v } else st.wires x := rfl

@[simp] theorem set_flags_wires (st : PCFState) (a x : Nat) (f : WireFlag) :
    (st.set_flags a f).wires x
      = if x = a then { st.wires x with flags := f } else st.wires x := rfl

@[simp] theorem set_keydata_wires (st : PCFState) (a k x : Nat) :
    (st.set_keydata a k).wires x
      = if x = a then { st.wires x with keydata := k } else st.wires x := rfl

@[simp] theorem set_value_log (st : PCFState) (a v : Nat) :
    (st.set_value a v).log = st.log := rfl

@[simp] theorem set_flags_log (st : PCFState) (a : Nat) (f : WireFlag) :
    (st.set_flags a f).log = st.log := rfl

@[simp] theorem set_keydata_log (st : PCFState) (a k : Nat) :
    (st.set_keydata a k).log = st.log := rfl

@[simp] theorem delete_if_set_wires (st : PCFState) (a : Nat) :
    (delete_if_set st a).wires = st.wires := rfl

@[simp] theorem after_copy_key_wires (E : PCFEnv) (st : PCFState) (k : Nat) :
    (after_copy_key E st k).wires = st.wires := rfl

@[simp] theorem after_callback_wires (E : PCFEnv) (st : PCFState) (g : PCFGate) :
    (after_callback E st g).wires = st.wires := rfl

theorem truth_bits_getD : ∀ t < 16, ∀ i < 4,
    (truth_bits 4 (t % 256)).getD i 0 = (t >>> i) &&& 1 := by
  decide

theorem truth_bits_lt_two : ∀ t < 16, ∀ i < 4, (truth_bits 4 (t % 256)).getD i 0 < 2 := by
  decide

/-! ## C1: direct gate evaluation -/

/-- Claim C1: in a state with an empty pending-gate guard, for a truth table
`t < 16` and operand wires that are both Known with values `a`, `b` in `{0,1}`,
`gate_op` succeeds and leaves the result wire with value `(t >> (a + 2*b)) & 1`,
flag Known, and as key the result of `copy_key` on the canonical constant key
indexed by that bit (the call made after the release of the old key of the result
wire). -/
theorem gate_op_known (E : PCFEnv) (st : PCFState) (data : PCFGate) (a b : Nat)
    (hguard : st.curgate = GatePtr.null) (htab : data.truth_table < 16)
    (hf1 : (st.wires (u32 (data.wire1 + st.base))).flags = WireFlag.KNOWN_WIRE)
    (hf2 : (st.wires (u32 (data.wire2 + st.base))).flags = WireFlag.KNOWN_WIRE)
    (hv1 : (st.wires (u32 (data.wire1 + st.base))).value = a)
    (hv2 : (st.wires (u32 (data.wire2 + st.base))).value = b)
    (ha : a < 2) (hb : b < 2) :
    ∃ st', gate_op E st data = Except.ok st'
      ∧ (st'.wires (u32 (data.reswire + st.base))).value
          = (data.truth_table >>> (a + 2 * b)) &&& 1
      ∧ (st'.wires (u32 (data.reswire + st.base))).flags = WireFlag.KNOWN_WIRE
      ∧ (st'.wires (u32 (data.reswire + st.base))).keydata
          = E.copy_key (delete_if_set st (u32 (data.reswire + st.base))).log
              (E.constant_keys ((data.truth_table >>> (a + 2 * b)) &&& 1)) := by
  have hidx : a + 2 * b < 4 := by omega
  have hbit := truth_bits_getD data.truth_table htab (a + 2 * b) hidx
  have hlt := truth_bits_lt_two data.truth_table htab (a + 2 * b) hidx
  subst hv1 hv2
  simp only [gate_op]
  simp [hguard, htab, hf1, hf2, ha, hb, hidx, hbit, hlt, copy_key_result, apply_ite wire.flags,
    apply_ite wire.value]
  split
  · simp_all; omega
  · simp_all

/-- Witness for C1, the scenario of the spec: truth table `0b0110`, wire 0 known
as 1, wire 1 known as 0, result in wire 2. -/
theorem gate_op_known_witness :
    ∃ st', gate_op demoEnv demoState ⟨0, 1, 2, 6, Tag.TAG_INTERNAL⟩ = Except.ok st'
      ∧ (st'.wires (u32 (2 + 0))).value = (6 >>> (1 + 2 * 0)) &&& 1
      ∧ (st'.wires (u32 (2 + 0))).flags = WireFlag.KNOWN_WIRE
      ∧ (st'.wires (u32 (2 + 0))).keydata
          = demoEnv.copy_key (delete_if_set demoState (u32 (2 + 0))).log
              (demoEnv.constant_keys ((6 >>> (1 + 2 * 0)) &&& 1)) :=
  gate_op_known demoEnv demoState ⟨0, 1, 2, 6, Tag.TAG_INTERNAL⟩ 1 0
    (by decide) (by decide) (by decide) (by decide) (by decide) (by decide)
    (by decide) (by decide)

/-! ## C2: bit decomposition -/

@[simp] theorem set_value_base (st : PCFState) (a v : Nat) :
    (st.set_value a v).base = st.base := rfl

@[simp] theorem set_flags_base (st : PCFState) (a : Nat) (f : WireFlag) :
    (st.set_flags a f).base = st.base := rfl

@[simp] theorem set_keydata_base (st : PCFState) (a k : Nat) :
    (st.set_keydata a k).base = st.base := rfl

@[simp] theorem delete_if_set_base (st : PCFState) (a : Nat) :
    (delete_if_set st a).base = st.base := rfl

@[simp] theorem after_copy_key_base (E : PCFEnv) (st : PCFState) (k : Nat) :
    (after_copy_key E st k).base = st.base := rfl

@[simp] theorem after_callback_base (E : PCFEnv) (st : PCFState) (g : PCFGate) :
    (after_callback E st g).base = st.base := rfl

/-- The loop of `bits_op` on pairwise distinct destinations: the frame base is
kept, destination `i` receives bit `i` of `cval`, and every wire that is not a
destination is untouched. -/
theorem bits_loop_spec (E : PCFEnv) (b : Nat) :
    ∀ (ds : List Nat) (cval : Nat) (st : PCFState), st.base = b →
      (ds.map (fun d => u32 (d + b))).Nodup →
      (bits_loop E ds cval st).base = b
      ∧ (∀ i, i < ds.length →
          ((bits_loop E ds cval st).wires (u32 (ds.getD i 0 + b))).value = (cval >>> i) &&& 1
          ∧ ((bits_loop E ds cval st).wires (u32 (ds.getD i 0 + b))).flags
              = WireFlag.KNOWN_WIRE
          ∧ ∃ h, ((bits_loop E ds cval st).wires (u32 (ds.getD i 0 + b))).keydata
              = E.copy_key h (E.constant_keys ((cval >>> i) &&& 1)))
      ∧ (∀ x, x ∉ ds.map (fun d => u32 (d + b)) →
          (bits_loop E ds cval st).wires x = st.wires x) := by
  intro ds
  induction ds with
  | nil =>
    intro cval st hb _
    refine ⟨hb, ?_, fun x _ => rfl⟩
    intro i hi
    simp at hi
  | cons d ds ih =>
    intro cval st hb hnd
    rw [List.map_cons, List.nodup_cons] at hnd
    obtain ⟨hd, hnd⟩ := hnd
    simp only [bits_loop]
    subst hb
    generalize hs : PCFState.set_keydata _ _ _ = s5
    have hb5 : s5.base = st.base := by rw [← hs]; simp
    obtain ⟨ihb, ihd, iho⟩ := ih (cval >>> 1) s5 hb5 hnd
    refine ⟨ihb, ?_, ?_⟩
    · intro i hi
      cases i with
      | zero =>
        rw [List.getD_cons_zero, iho _ hd, ← hs]
        simp [copy_key_result]
        exact ⟨_, rfl⟩
      | succ i =>
        have hi' : i < ds.length := by simpa using hi
        have := ihd i hi'
        rw [List.getD_cons_succ, Nat.add_comm i 1, Nat.shiftRight_add]
        exact this
    · intro x hx
      rw [List.map_cons, List.mem_cons, not_or] at hx
      rw [iho x hx.2, ← hs]
      simp [hx.1]

/-- Reading bits back, least significant first, rebuilds a value below `2^n`. -/
theorem sum_bits_eq : ∀ (n v : Nat), v < 2 ^ n →
    ∑ i in Finset.range n, ((v >>> i) &&& 1) * 2 ^ i = v := by
  intro n
  induction n with
  | zero => intro v hv; simp at hv; simp [hv]
  | succ n ih =>
    intro v hv
    rw [Finset.sum_range_succ']
    have h2 : v / 2 < 2 ^ n := by
      rw [Nat.div_lt_iff_lt_mul (by decide)]; rw [pow_succ] at hv; exact hv
    have hstep : ∀ i ∈ Finset.range n,
        ((v >>> (i + 1)) &&& 1) * 2 ^ (i + 1) = 2 * (((v / 2) >>> i) &&& 1) * 2 ^ i := by
      intro i _
      rw [Nat.add_comm i 1, Nat.shiftRight_add, Nat.shiftRight_one, Nat.add_comm 1 i, pow_succ]
      ring
    rw [Finset.sum_congr rfl hstep]
    have hsum := ih (v / 2) h2
    simp only [mul_assoc] at *
    rw [← Finset.mul_sum, hsum]
    simp [Nat.and_one_is_mod]
    omega

/-- Claim C2: for a Known source wire with value `v` and pairwise distinct
destination wires, `bits_op` succeeds and sets destination `i` to value
`(v >> i) & 1`, flag Known, with as key a result of `copy_key` on the canonical
constant key of that bit; and when `v < 2^n`, `n` the number of destinations, the
sum of `dest_i.value * 2^i` read back afterwards is `v`. -/
theorem bits_op_known (E : PCFEnv) (st : PCFState) (data : bits_op_data) (v : Nat)
    (hf : (st.wires (u32 (data.source + st.base))).flags = WireFlag.KNOWN_WIRE)
    (hv : (st.wires (u32 (data.source + st.base))).value = v)
    (hnd : (data.dests.map (fun d => u32 (d + st.base))).Nodup) :
    ∃ st', bits_op E st data = Except.ok st'
      ∧ (∀ i, i < data.dests.length →
          (st'.wires (u32 (data.dests.getD i 0 + st.base))).value = (v >>> i) &&& 1
          ∧ (st'.wires (u32 (data.dests.getD i 0 + st.base))).flags = WireFlag.KNOWN_WIRE
          ∧ ∃ h, (st'.wires (u32 (data.dests.getD i 0 + st.base))).keydata
              = E.copy_key h (E.constant_keys ((v >>> i) &&& 1)))
      ∧ (v < 2 ^ data.dests.length →
          ∑ i in Finset.range data.dests.length,
            (st'.wires (u32 (data.dests.getD i 0 + st.base))).value * 2 ^ i = v) := by
  obtain ⟨_, hd, _⟩ := bits_loop_spec E st.base data.dests v st rfl hnd
  refine ⟨bits_loop E data.dests v st, ?_, hd, ?_⟩
  · simp [bits_op, hf, hv]
  · intro hlt
    refine Eq.trans (Finset.sum_congr rfl ?_) (sum_bits_eq data.dests.length v hlt)
    intro i hi
    rw [(hd i (Finset.mem_range.mp hi)).1]

/-- Witness for C2, the scenario of the spec: source wire 7 holds `0b101`, the
destinations are wires 0, 1 and 2. -/
theorem bits_op_known_witness :
    ∃ st', bits_op demoEnv demoState ⟨7, [0, 1, 2]⟩ = Except.ok st'
      ∧ (∀ i, i < 3 →
          (st'.wires (u32 ([0, 1, 2].getD i 0 + 0))).value = (5 >>> i) &&& 1
          ∧ (st'.wires (u32 ([0, 1, 2].getD i 0 + 0))).flags = WireFlag.KNOWN_WIRE
          ∧ ∃ h, (st'.wires (u32 ([0, 1, 2].getD i 0 + 0))).keydata
              = demoEnv.copy_key h (demoEnv.constant_keys ((5 >>> i) &&& 1)))
      ∧ (5 < 2 ^ 3 →
          ∑ i in Finset.range 3,
            (st'.wires (u32 ([0, 1, 2].getD i 0 + 0))).value * 2 ^ i = 5) :=
  bits_op_known demoEnv demoState ⟨7, [0, 1, 2]⟩ 5 (by decide) (by decide) (by decide)

/-! ## C3: call and return -/

/-- Claim C3: for a general call (target none of the four role names, label
present), dispatching the call and then a return succeeds, leaves the call stack
as it was before the call and the program counter one past the counter of the called
instruction; the counter that `ret_op` restores is the one `call_op` saved. -/
theorem call_ret_balance (E : PCFEnv) (st : PCFState) (data : call_op_data) (t : Nat)
    (ha : data.target.key ≠ "alice") (hb : data.target.key ≠ "bob")
    (hoa : data.target.key ≠ "output_alice") (hob : data.target.key ≠ "output_bob")
    (hl : E.labels data.target.key = some t) :
    ∃ st1 st2, dispatch E (PCFOP.call data) st = Except.ok st1
      ∧ dispatch E PCFOP.ret st1 = Except.ok st2
      ∧ st1.call_stack = { ret_pc := st.PC } :: st.call_stack
      ∧ (ret_op st1).PC = st.PC
      ∧ st2.call_stack = st.call_stack
      ∧ st2.call_stack.length = st.call_stack.length
      ∧ st2.PC = u32 (st.PC + 1) := by
  simp [dispatch, PCFOP.exec, call_op, call_general, ret_op, ha, hb, hoa, hob, hl]

/-- Witness for C3: a call of the label `f` in the sample state. -/
theorem call_ret_balance_witness :
    ∃ st1 st2, dispatch demoEnv (PCFOP.call ⟨⟨"f"⟩, 64⟩) demoState = Except.ok st1
      ∧ dispatch demoEnv PCFOP.ret st1 = Except.ok st2
      ∧ st1.call_stack = { ret_pc := demoState.PC } :: demoState.call_stack
      ∧ (ret_op st1).PC = demoState.PC
      ∧ st2.call_stack = demoState.call_stack
      ∧ st2.call_stack.length = demoState.call_stack.length
      ∧ st2.PC = u32 (demoState.PC + 1) :=
  call_ret_balance demoEnv demoState ⟨⟨"f"⟩, 64⟩ 10
    (by decide) (by decide) (by decide) (by decide) (by decide)

/-! ## Input roles: the argument loop -/

/-- The argument loop with `n` iterations left (so `i = 33 - n`) succeeds when the
remaining argument wires are boolean (and Known where the flag is asserted), and
returns the accumulated index shifted by `n` plus the number spelled by the
remaining wires. -/
theorem input_arg_loop_ok (st : PCFState) (nb : Nat) (chk : Bool) :
    ∀ (n i idx : Nat), i + n = 33 → 1 ≤ i → idx < 2 ^ (32 - n) →
      (∀ j, j < n → (st.wires (arg_addr st nb j)).value < 2
          ∧ (chk = true → (st.wires (arg_addr st nb j)).flags = WireFlag.KNOWN_WIRE)) →
      input_arg_loop st nb chk n i idx
        = Except.ok (idx * 2 ^ n
            + ∑ j in Finset.range n, (st.wires (arg_addr st nb j)).value * 2 ^ j) := by
  intro n
  induction n with
  | zero => intro i idx _ _ _ _; simp [input_arg_loop]
  | succ n ih =>
    intro i idx hin hi hidx hw
    have hi' : i = 32 - n := by omega
    have hn : n ≤ 31 := by omega
    obtain ⟨hv, hk⟩ := hw n (Nat.lt_succ_self n)
    have hpow : 2 ^ (32 - n) = 2 * 2 ^ (32 - (n + 1)) := by
      rw [show 32 - n = (32 - (n + 1)) + 1 by omega, pow_succ]; ring
    have hle : 2 ^ (32 - n) ≤ 4294967296 := by
      have := Nat.pow_le_pow_right (show 0 < 2 by decide) (show 32 - n ≤ 32 by omega)
      simpa using this
    have haddr : u32sub (u32 (st.base + nb)) i = arg_addr st nb n := by
      rw [hi']; rfl
    have h1 : u32 (idx <<< 1) = idx * 2 := by
      rw [Nat.shiftLeft_eq, u32]; apply Nat.mod_eq_of_lt; simp; omega
    have h2 : u32 (idx * 2 + (st.wires (arg_addr st nb n)).value)
        = idx * 2 + (st.wires (arg_addr st nb n)).value := by
      rw [u32]; apply Nat.mod_eq_of_lt; omega
    have hrec := ih (i + 1) (idx * 2 + (st.wires (arg_addr st nb n)).value)
      (by omega) (by omega) (by omega) (fun j hj => hw j (Nat.lt_succ_of_lt hj))
    simp only [input_arg_loop, haddr, h1, h2]
    rw [if_neg (by simpa using hv), if_neg (by
      intro hc
      exact hc.2 (hk hc.1)), hrec, Finset.sum_range_succ]
    congr 1
    rw [pow_succ]; ring

/-- With the cursor at step 0 and boolean (Known where asserted) argument wires, the
first part of an input role stores the number spelled by the argument wires in
`inp_idx`. -/
theorem input_arg_ok (st : PCFState) (nb : Nat) (chk : Bool) (h0 : st.inp_i = 0)
    (hw : ∀ j, j < 32 → (st.wires (arg_addr st nb j)).value < 2
          ∧ (chk = true → (st.wires (arg_addr st nb j)).flags = WireFlag.KNOWN_WIRE)) :
    input_arg st nb chk = Except.ok { st with inp_idx := arg_sum st nb } := by
  have h := input_arg_loop_ok st nb chk 32 1 0 (by decide) (by decide) (by decide) hw
  simp [input_arg, h0, h, arg_sum]

/-! ## Input roles: one dispatch -/

theorem callback_count_delete_if_set (st : PCFState) (a : Nat) :
    callback_count (delete_if_set st a).log = callback_count st.log := by
  unfold delete_if_set; dsimp only; split <;> simp [callback_count]

/-- An input role call whose argument wires are boolean and Known (needed only
when the cursor is at step 0) runs `input_round` on the state whose `inp_idx` holds
the argument. -/
theorem call_op_input (E : PCFEnv) (s : PCFState) (d : call_op_data)
    (hrole : d.target.key = "alice" ∨ d.target.key = "bob")
    (hargs : s.inp_i = 0 → ∀ j, j < 32 →
      (s.wires (arg_addr s d.newbase j)).flags = WireFlag.KNOWN_WIRE
        ∧ (s.wires (arg_addr s d.newbase j)).value < 2) :
    call_op E s d = Except.ok (input_round E
      { s with inp_idx := if s.inp_i = 0 then arg_sum s d.newbase else s.inp_idx }
      d.newbase (input_tag d.target.key)) := by
  have hne : ("bob" : String) ≠ "alice" := by decide
  by_cases h0 : s.inp_i = 0
  · have hw : ∀ (chk : Bool) j, j < 32 → (s.wires (arg_addr s d.newbase j)).value < 2
          ∧ (chk = true → (s.wires (arg_addr s d.newbase j)).flags = WireFlag.KNOWN_WIRE) :=
      fun _ j hj => ⟨(hargs h0 j hj).2, fun _ => (hargs h0 j hj).1⟩
    rcases hrole with h | h
    · simp [call_op, h, input_arg_ok s d.newbase false h0 (hw false), h0, input_tag]
    · simp [call_op, h, hne, input_arg_ok s d.newbase true h0 (hw true), h0, input_tag]
  · rcases hrole with h | h
    · simp [call_op, h, input_arg, h0, input_tag]
    · simp [call_op, h, hne, input_arg, h0, input_tag]

/-- The number spelled by the argument wires depends only on the frame base and
the wires. -/
theorem arg_sum_congr (s s' : PCFState) (nb : Nat) (hb : s'.base = s.base)
    (hw : ∀ j, j < 32 → s'.wires (arg_addr s nb j) = s.wires (arg_addr s nb j)) :
    arg_sum s' nb = arg_sum s nb := by
  unfold arg_sum
  apply Finset.sum_congr rfl
  intro j hj
  have : arg_addr s' nb j = arg_addr s nb j := by simp [arg_addr, hb]
  rw [this, hw j (Finset.mem_range.mp hj)]

/-- An argument wire is never a result wire of the same role call. -/
theorem arg_addr_ne_result (s : PCFState) (nb j i : Nat) (hj : j < 32) (hi : i < 32) :
    arg_addr s nb j ≠ u32 (s.base + nb + i) := by
  unfold arg_addr u32sub u32
  omega

/-- One dispatch of an input role call with the cursor below 32: the cursor
advances, the program counter comes back to the call, one callback is made and
only the result wire of the round changes. -/
theorem dispatch_input_round (E : PCFEnv) (s : PCFState) (d : call_op_data)
    (hrole : d.target.key = "alice" ∨ d.target.key = "bob")
    (hlt : s.inp_i < 32) (hpc : s.PC < 4294967296)
    (hargs : s.inp_i = 0 → ∀ j, j < 32 →
      (s.wires (arg_addr s d.newbase j)).flags = WireFlag.KNOWN_WIRE
        ∧ (s.wires (arg_addr s d.newbase j)).value < 2) :
    ∃ s', dispatch E (PCFOP.call d) s = Except.ok s'
      ∧ s'.inp_i = s.inp_i + 1 ∧ s'.PC = s.PC ∧ s'.base = s.base
      ∧ s'.call_stack = s.call_stack
      ∧ s'.inp_idx = (if s.inp_i = 0 then arg_sum s d.newbase else s.inp_idx)
      ∧ callback_count s'.log = callback_count s.log + 1
      ∧ ∀ x, x ≠ u32 (s.base + d.newbase + s.inp_i) → s'.wires x = s.wires x := by
  have hc := call_op_input E s d hrole hargs
  have hd : dispatch E (PCFOP.call d) s = Except.ok
      { (input_round E
          { s with inp_idx := if s.inp_i = 0 then arg_sum s d.newbase else s.inp_idx }
          d.newbase (input_tag d.target.key)) with
        PC := u32 ((input_round E
          { s with inp_idx := if s.inp_i = 0 then arg_sum s d.newbase else s.inp_idx }
          d.newbase (input_tag d.target.key)).PC + 1) } := by
    simp only [dispatch, PCFOP.exec, hc]
  refine ⟨_, hd, ?_⟩
  have h1 : u32 (s.inp_i + 1) = s.inp_i + 1 := by unfold u32; omega
  have h2 : u32 (u32sub s.PC 1 + 1) = s.PC := by unfold u32 u32sub; omega
  refine ⟨?_, ?_, ?_, ?_, ?_, ?_, ?_⟩
  · simp [input_round, hlt, h1, PCFState.set_flags, PCFState.set_keydata, after_copy_key,
      after_callback, delete_if_set]
  · simp [input_round, hlt, h2, PCFState.set_flags, PCFState.set_keydata, after_copy_key,
      after_callback, delete_if_set]
  · simp [input_round, hlt]
  · simp [input_round, hlt, PCFState.set_flags, PCFState.set_keydata, after_copy_key,
      after_callback, delete_if_set]
  · simp [input_round, hlt, PCFState.set_flags, PCFState.set_keydata, after_copy_key,
      after_callback, delete_if_set]
  · simp only [input_round, hlt, if_true, PCFState.set_flags, PCFState.set_keydata,
      after_copy_key, after_callback, callback_count, callback_count_delete_if_set]
  · intro x hx
    simp [input_round, hlt, input_gate, hx]

/-- The dispatch of an input role call with the cursor at 32 makes no callback: it
resets the cursor and lets the program counter advance. -/
theorem dispatch_input_reset (E : PCFEnv) (s : PCFState) (d : call_op_data)
    (hrole : d.target.key = "alice" ∨ d.target.key = "bob") (h32 : s.inp_i = 32) :
    call_op E s d = Except.ok { s with inp_i := 0 }
      ∧ dispatch E (PCFOP.call d) s = Except.ok { s with inp_i := 0, PC := u32 (s.PC + 1) } := by
  have hc : call_op E s d = Except.ok { s with inp_i := 0 } := by
    rw [call_op_input E s d hrole (by omega)]
    simp [input_round, h32]
  exact ⟨hc, by simp only [dispatch, PCFOP.exec, hc]⟩

/-- State reached after `k ≤ 32` dispatches of an input role call started with the
cursor at 0: the cursor is `k`, the program counter, frame base and call stack are
those of the start, `inp_idx` holds the argument, `k` callbacks were made and only
the result wires of the rounds made so far may differ. -/
theorem input_rounds_state (E : PCFEnv) (s0 : PCFState) (d : call_op_data)
    (hrole : d.target.key = "alice" ∨ d.target.key = "bob")
    (h0 : s0.inp_i = 0) (hpc : s0.PC < 4294967296)
    (hargs : ∀ j, j < 32 →
      (s0.wires (arg_addr s0 d.newbase j)).flags = WireFlag.KNOWN_WIRE
        ∧ (s0.wires (arg_addr s0 d.newbase j)).value < 2) :
    ∀ k, k ≤ 32 → ∃ sk, dispatch_n E (PCFOP.call d) k s0 = Except.ok sk
      ∧ sk.inp_i = k ∧ sk.PC = s0.PC ∧ sk.base = s0.base
      ∧ sk.call_stack = s0.call_stack
      ∧ (0 < k → sk.inp_idx = arg_sum s0 d.newbase)
      ∧ callback_count sk.log = callback_count s0.log + k
      ∧ ∀ x, (∀ i, i < k → x ≠ u32 (s0.base + d.newbase + i)) → sk.wires x = s0.wires x := by
  intro k
  induction k with
  | zero =>
    intro _
    exact ⟨s0, rfl, h0, rfl, rfl, rfl, fun h => absurd h (Nat.lt_irrefl 0), rfl, fun _ _ => rfl⟩
  | succ k ih =>
    intro hk
    obtain ⟨sk, hrun, hi, hp, hb, hcs, hidx, hcc, hw⟩ := ih (by omega)
    have hargs_k : sk.inp_i = 0 → ∀ j, j < 32 →
        (sk.wires (arg_addr sk d.newbase j)).flags = WireFlag.KNOWN_WIRE
          ∧ (sk.wires (arg_addr sk d.newbase j)).value < 2 := by
      intro hz j hj
      have hk0 : k = 0 := by omega
      have ha : arg_addr sk d.newbase j = arg_addr s0 d.newbase j := by simp [arg_addr, hb]
      rw [ha, hw _ (by intro i hik; omega)]
      exact hargs j hj
    obtain ⟨s', hd, hi', hp', hb', hcs', hidx', hcc', hw'⟩ :=
      dispatch_input_round E sk d hrole (by omega) (by omega) hargs_k
    refine ⟨s', by simp only [dispatch_n, hrun, hd], by omega, by omega, by rw [hb', hb],
      by rw [hcs', hcs], ?_, by omega, ?_⟩
    · intro _
      rw [hidx']
      by_cases hk0 : k = 0
      · rw [if_pos (by omega)]
        apply arg_sum_congr s0 sk d.newbase hb
        intro j _
        exact hw _ (by intro i hik; omega)
      · rw [if_neg (by omega)]
        exact hidx (by omega)
    · intro x hx
      rw [hw' x (by rw [hb, hi]; exact hx k (Nat.lt_succ_self k))]
      exact hw x (fun i hik => hx i (Nat.lt_succ_of_lt hik))

/-- Effect of `call_op` for an input role with the cursor below 32: the state handed
to the callback is `cst`, the callback is called once on the descriptor of the
round, its result is cloned into the result wire, which becomes Unknown; the cursor
advances and the program counter is decremented. -/
theorem call_op_input_lt (E : PCFEnv) (s : PCFState) (d : call_op_data)
    (hrole : d.target.key = "alice" ∨ d.target.key = "bob")
    (hlt : s.inp_i < 32)
    (hargs : s.inp_i = 0 → ∀ j, j < 32 →
      (s.wires (arg_addr s d.newbase j)).flags = WireFlag.KNOWN_WIRE
        ∧ (s.wires (arg_addr s d.newbase j)).value < 2) :
    ∃ s' cst g r, call_op E s d = Except.ok s'
      ∧ g = { wire1 := u32 ((if s.inp_i = 0 then arg_sum s d.newbase else s.inp_idx) + s.inp_i),
              wire2 := u32 ((if s.inp_i = 0 then arg_sum s d.newbase else s.inp_idx) + s.inp_i),
              reswire := u32 (s.base + d.newbase + s.inp_i),
              truth_table := 5, tag := input_tag d.target.key }
      ∧ r = E.callback cst g
      ∧ s'.inp_i = s.inp_i + 1
      ∧ s'.PC = u32sub s.PC 1
      ∧ s'.log = Event.copied r (s'.wires g.reswire).keydata :: Event.called g r
                  :: (delete_if_set s g.reswire).log
      ∧ (s'.wires g.reswire).keydata
          = E.copy_key (Event.called g r :: (delete_if_set s g.reswire).log) r
      ∧ (s'.wires g.reswire).flags = WireFlag.UNKNOWN_WIRE
      ∧ (s'.wires g.reswire).value = (s.wires g.reswire).value
      ∧ ∀ x, x ≠ g.reswire → s'.wires x = s.wires x := by
  have hc := call_op_input E s d hrole hargs
  have h1 : u32 (s.inp_i + 1) = s.inp_i + 1 := by unfold u32; omega
  refine ⟨_,
    delete_if_set
      { s with inp_idx := if s.inp_i = 0 then arg_sum s d.newbase else s.inp_idx,
               inp_i := u32 (s.inp_i + 1),
               input_g := input_gate
                 { s with inp_idx := if s.inp_i = 0 then arg_sum s d.newbase else s.inp_idx }
                 d.newbase s.inp_i (input_tag d.target.key) }
      (u32 (s.base + d.newbase + s.inp_i)),
    _, _, hc, rfl, rfl, ?_, ?_, ?_, ?_, ?_, ?_, ?_⟩
  · simp [input_round, hlt, h1, PCFState.set_flags, PCFState.set_keydata, after_copy_key,
      after_callback, delete_if_set]
  · simp [input_round, hlt, PCFState.set_flags, PCFState.set_keydata, after_copy_key,
      after_callback, delete_if_set]
  · simp [input_round, hlt, input_gate, PCFState.set_flags, PCFState.set_keydata,
      after_copy_key, after_callback, delete_if_set, copy_key_result]
  · simp [input_round, hlt, input_gate, PCFState.set_flags, PCFState.set_keydata,
      after_copy_key, after_callback, delete_if_set, copy_key_result]
  · simp [input_round, hlt, input_gate]
  · simp [input_round, hlt, input_gate]
  · intro x hx
    simp [input_round, hlt, input_gate, hx]

/-- One more dispatch after `n` successful ones. -/
theorem dispatch_n_succ (E : PCFEnv) (op : PCFOP) (n : Nat) (s s1 : PCFState)
    (h : dispatch_n E op n s = Except.ok s1) :
    dispatch_n E op (n + 1) s = dispatch E op s1 := by
  simp only [dispatch_n, h]

/-- Repeated dispatch splits at any point. -/
theorem dispatch_n_add (E : PCFEnv) (op : PCFOP) (m : Nat) (s s1 : PCFState)
    (h : dispatch_n E op m s = Except.ok s1) :
    ∀ k, dispatch_n E op (m + k) s = dispatch_n E op k s1 := by
  intro k
  induction k with
  | zero => simpa [dispatch_n] using h
  | succ k ih => rw [← Nat.add_assoc]; simp only [dispatch_n, ih]

/-- The 33 dispatches of an input role call started with the cursor at 0 end in a
state with the cursor back at 0, the program counter advanced by one, the frame
base kept, 32 more callbacks logged and the argument wires untouched. -/
theorem input_run33 (E : PCFEnv) (s0 : PCFState) (d : call_op_data)
    (hrole : d.target.key = "alice" ∨ d.target.key = "bob")
    (h0 : s0.inp_i = 0) (hpc : s0.PC < 4294967296)
    (hargs : ∀ j, j < 32 →
      (s0.wires (arg_addr s0 d.newbase j)).flags = WireFlag.KNOWN_WIRE
        ∧ (s0.wires (arg_addr s0 d.newbase j)).value < 2) :
    ∃ s33, dispatch_n E (PCFOP.call d) 33 s0 = Except.ok s33
      ∧ s33.inp_i = 0 ∧ s33.PC = u32 (s0.PC + 1) ∧ s33.base = s0.base
      ∧ callback_count s33.log = callback_count s0.log + 32
      ∧ ∀ j, j < 32 → s33.wires (arg_addr s0 d.newbase j) = s0.wires (arg_addr s0 d.newbase j) := by
  obtain ⟨s32, hrun, hi, hp, hb, _, _, hcc, hw⟩ := input_rounds_state E s0 d hrole h0 hpc hargs 32 (le_refl _)
  obtain ⟨_, hd⟩ := dispatch_input_reset E s32 d hrole hi
  refine ⟨_, (dispatch_n_succ E _ 32 s0 s32 hrun).trans hd, rfl, by simp [hp], hb, hcc, ?_⟩
  intro j hj
  exact hw _ (fun i hi => arg_addr_ne_result s0 d.newbase j i hj hi)

/-! ## C4: the 33 dispatches of an input role call -/

/-- Claim C4: an input role call ("alice" or "bob") is dispatched repeatedly from a
state with the cursor step at 0, a program counter that is a 32-bit word and
Known boolean argument wires.  Every dispatch succeeds.  For `k < 32`, dispatch
`k + 1` starts with the cursor at `k` and the program counter of the call; its
`call_op` makes exactly one callback, moves the cursor to `k + 1` and decrements the
program counter.  The `call_op` of dispatch 33 makes no callback, keeps the program
counter and resets the cursor to 0; 32 callbacks have been made by then.  A second
run from the state after dispatch 33 goes through the same cursor steps. -/
theorem input_call_rounds (E : PCFEnv) (s0 : PCFState) (d : call_op_data)
    (hrole : d.target.key = "alice" ∨ d.target.key = "bob")
    (h0 : s0.inp_i = 0) (hpc : s0.PC < 4294967296)
    (hargs : ∀ j, j < 32 →
      (s0.wires (arg_addr s0 d.newbase j)).flags = WireFlag.KNOWN_WIRE
        ∧ (s0.wires (arg_addr s0 d.newbase j)).value < 2) :
    (∀ k, k < 32 → ∃ sk sk', dispatch_n E (PCFOP.call d) k s0 = Except.ok sk
        ∧ sk.inp_i = k ∧ sk.PC = s0.PC
        ∧ call_op E sk d = Except.ok sk'
        ∧ callback_count sk'.log = callback_count sk.log + 1
        ∧ sk'.inp_i = k + 1
        ∧ sk'.PC = u32sub sk.PC 1)
    ∧ (∃ s32 s32', dispatch_n E (PCFOP.call d) 32 s0 = Except.ok s32
        ∧ s32.inp_i = 32 ∧ s32.PC = s0.PC
        ∧ callback_count s32.log = callback_count s0.log + 32
        ∧ call_op E s32 d = Except.ok s32'
        ∧ callback_count s32'.log = callback_count s32.log
        ∧ s32'.PC = s32.PC
        ∧ s32'.inp_i = 0)
    ∧ (∃ s33, dispatch_n E (PCFOP.call d) 33 s0 = Except.ok s33
        ∧ s33.inp_i = 0 ∧ s33.PC = u32 (s0.PC + 1)
        ∧ callback_count s33.log = callback_count s0.log + 32)
    ∧ (∀ k, k ≤ 33 → ∃ a b, dispatch_n E (PCFOP.call d) k s0 = Except.ok a
        ∧ dispatch_n E (PCFOP.call d) (33 + k) s0 = Except.ok b
        ∧ b.inp_i = a.inp_i
        ∧ callback_count b.log = callback_count a.log + 32) := by
  obtain ⟨s33, hrun33, hi33, hp33, hb33, hcc33, hw33⟩ := input_run33 E s0 d hrole h0 hpc hargs
  have hpc33 : s33.PC < 4294967296 := by rw [hp33]; unfold u32; omega
  have hargs33 : ∀ j, j < 32 →
      (s33.wires (arg_addr s33 d.newbase j)).flags = WireFlag.KNOWN_WIRE
        ∧ (s33.wires (arg_addr s33 d.newbase j)).value < 2 := by
    intro j hj
    have ha : arg_addr s33 d.newbase j = arg_addr s0 d.newbase j := by simp [arg_addr, hb33]
    rw [ha, hw33 j hj]
    exact hargs j hj
  refine ⟨?_, ?_, ⟨s33, hrun33, hi33, hp33, hcc33⟩, ?_⟩
  · intro k hk
    obtain ⟨sk, hrun, hi, hp, hb, _, _, _, hw⟩ :=
      input_rounds_state E s0 d hrole h0 hpc hargs k (by omega)
    have hargs_k : sk.inp_i = 0 → ∀ j, j < 32 →
        (sk.wires (arg_addr sk d.newbase j)).flags = WireFlag.KNOWN_WIRE
          ∧ (sk.wires (arg_addr sk d.newbase j)).value < 2 := by
      intro hz j hj
      have ha : arg_addr sk d.newbase j = arg_addr s0 d.newbase j := by simp [arg_addr, hb]
      rw [ha, hw _ (by intro i hik; omega)]
      exact hargs j hj
    obtain ⟨sk', _, g, r, hc, _, _, hi', hp', hlog, _⟩ :=
      call_op_input_lt E sk d hrole (by omega) hargs_k
    refine ⟨sk, sk', hrun, hi, hp, hc, ?_, by omega, hp'⟩
    rw [hlog]
    simp [callback_count, callback_count_delete_if_set]
  · obtain ⟨s32, hrun, hi, hp, _, _, _, hcc, _⟩ :=
      input_rounds_state E s0 d hrole h0 hpc hargs 32 (le_refl _)
    obtain ⟨hc, _⟩ := dispatch_input_reset E s32 d hrole hi
    exact ⟨s32, _, hrun, hi, hp, hcc, hc, rfl, rfl, rfl⟩
  · intro k hk
    rw [dispatch_n_add E _ 33 s0 s33 hrun33 k]
    by_cases hk32 : k ≤ 32
    · obtain ⟨a, hra, hia, _, _, _, _, hca, _⟩ :=
        input_rounds_state E s0 d hrole h0 hpc hargs k hk32
      obtain ⟨b, hrb, hib, _, _, _, _, hcb, _⟩ :=
        input_rounds_state E s33 d hrole hi33 hpc33 hargs33 k hk32
      exact ⟨a, b, hra, hrb, by omega, by omega⟩
    · have hk33 : k = 33 := by omega
      subst hk33
      obtain ⟨b, hrb, hib, _, _, hcb, _⟩ := input_run33 E s33 d hrole hi33 hpc33 hargs33
      exact ⟨s33, b, hrun33, hrb, by omega, by omega⟩

/-- Witness for C4: the role "alice" with frame size 128 in the sample state (the
argument wires are wires 96 to 127). -/
theorem input_call_rounds_witness :
    ∃ s33, dispatch_n demoEnv (PCFOP.call ⟨⟨"alice"⟩, 128⟩) 33 demoState = Except.ok s33
      ∧ s33.inp_i = 0 ∧ s33.PC = u32 (demoState.PC + 1)
      ∧ callback_count s33.log = callback_count demoState.log + 32 :=
  (input_call_rounds demoEnv demoState ⟨⟨"alice"⟩, 128⟩ (Or.inl rfl) (by decide) (by decide)
    (by decide)).2.2.1

/-! ## C5: argument check of the input roles -/

/-- Evaluation for C5: in the sample state the argument wire 40 of a call with frame
size 64 is Unknown (with value 0) and the cursor is at step 0; the "alice" call
nevertheless succeeds and makes a callback. -/
theorem alice_unknown_arg_accepted :
    demoState.inp_i = 0
      ∧ arg_addr demoState 64 8 = 40
      ∧ (demoState.wires (arg_addr demoState 64 8)).flags = WireFlag.UNKNOWN_WIRE
      ∧ ∃ s', call_op demoEnv demoState ⟨⟨"alice"⟩, 64⟩ = Except.ok s'
          ∧ callback_count s'.log = 1 :=
  ⟨by decide, by decide, by decide, _, rfl, by decide⟩

/-- The argument loop fails, in the state it started from, as soon as one of the
remaining argument wires is not boolean, or is not Known where the flag is
asserted. -/
theorem input_arg_loop_bad (st : PCFState) (nb : Nat) (chk : Bool) :
    ∀ (n i idx : Nat), i + n = 33 →
      (∃ j, j < n ∧ (¬ (st.wires (arg_addr st nb j)).value < 2
          ∨ (chk = true ∧ (st.wires (arg_addr st nb j)).flags ≠ WireFlag.KNOWN_WIRE))) →
      input_arg_loop st nb chk n i idx = Except.error ⟨Err.WireTypeViolation, st⟩ := by
  intro n
  induction n with
  | zero => intro i idx _ h; obtain ⟨j, hj, _⟩ := h; omega
  | succ n ih =>
    intro i idx hin hbad
    have hi' : i = 32 - n := by omega
    have haddr : u32sub (u32 (st.base + nb)) i = arg_addr st nb n := by
      rw [hi']; rfl
    simp only [input_arg_loop, haddr]
    by_cases hv : (st.wires (arg_addr st nb n)).value < 2
    · by_cases hk : chk = true ∧ (st.wires (arg_addr st nb n)).flags ≠ WireFlag.KNOWN_WIRE
      · rw [if_neg (by simpa using hv), if_pos hk]
      · rw [if_neg (by simpa using hv), if_neg hk]
        apply ih (i + 1) _ (by omega)
        obtain ⟨j, hj, hb⟩ := hbad
        have hjn : j ≠ n := by
          rintro rfl
          rcases hb with hb | hb
          · exact hb hv
          · exact hk hb
        exact ⟨j, by omega, hb⟩
    · rw [if_pos (by simpa using hv)]

/-- The part of C5 that holds: with the cursor at step 0, a "bob" call fails with
`WireTypeViolation`, in the unchanged state (so without a callback), when an
argument wire is not Known or not boolean; an "alice" call does so when an argument
wire is not boolean. -/
theorem input_bad_arg_fails (E : PCFEnv) (s : PCFState) (d : call_op_data) (h0 : s.inp_i = 0)
    (hbad : (d.target.key = "bob" ∧ ∃ j, j < 32 ∧
              ((s.wires (arg_addr s d.newbase j)).flags ≠ WireFlag.KNOWN_WIRE
                ∨ ¬ (s.wires (arg_addr s d.newbase j)).value < 2))
          ∨ (d.target.key = "alice" ∧ ∃ j, j < 32 ∧
              ¬ (s.wires (arg_addr s d.newbase j)).value < 2)) :
    call_op E s d = Except.error ⟨Err.WireTypeViolation, s⟩ := by
  have hne : ("bob" : String) ≠ "alice" := by decide
  rcases hbad with ⟨hk, j, hj, hb⟩ | ⟨hk, j, hj, hb⟩
  · have hl := input_arg_loop_bad s d.newbase true 32 1 0 (by decide)
      ⟨j, hj, by rcases hb with hb | hb
                 · exact Or.inr ⟨rfl, hb⟩
                 · exact Or.inl hb⟩
    simp [call_op, hk, hne, input_arg, h0, hl]
  · have hl := input_arg_loop_bad s d.newbase false 32 1 0 (by decide) ⟨j, hj, Or.inl hb⟩
    simp [call_op, hk, input_arg, h0, hl]

/-! ## C6: descriptor and result wire of each input round -/

/-- Claim C6: an input role call is started with the cursor at 0 and Known boolean
argument wires, `S = arg_sum` being the number they spell (sums are the 32-bit sums
of the code).  In round `k < 32`, on the state `sk` reached after `k` dispatches,
`call_op` calls the callback once, on the descriptor `g` with
`wire1 = wire2 = S + k`, `reswire = base + newbase + k`, truth table 5 and the tag of
the role; the key `r` it returns is cloned into the result wire, which is then
flagged Unknown, and every other wire is as before the round. -/
theorem input_round_descriptor (E : PCFEnv) (s0 : PCFState) (d : call_op_data)
    (hrole : d.target.key = "alice" ∨ d.target.key = "bob")
    (h0 : s0.inp_i = 0) (hpc : s0.PC < 4294967296)
    (hargs : ∀ j, j < 32 →
      (s0.wires (arg_addr s0 d.newbase j)).flags = WireFlag.KNOWN_WIRE
        ∧ (s0.wires (arg_addr s0 d.newbase j)).value < 2) :
    ∀ k, k < 32 → ∃ sk sk' cst g r,
      dispatch_n E (PCFOP.call d) k s0 = Except.ok sk
      ∧ call_op E sk d = Except.ok sk'
      ∧ g = { wire1 := u32 (arg_sum s0 d.newbase + k), wire2 := u32 (arg_sum s0 d.newbase + k),
              reswire := u32 (s0.base + d.newbase + k), truth_table := 5,
              tag := if d.target.key = "alice" then Tag.TAG_INPUT_A else Tag.TAG_INPUT_B }
      ∧ r = E.callback cst g
      ∧ sk'.log = Event.copied r (sk'.wires g.reswire).keydata :: Event.called g r
                  :: (delete_if_set sk g.reswire).log
      ∧ (sk'.wires g.reswire).keydata
          = E.copy_key (Event.called g r :: (delete_if_set sk g.reswire).log) r
      ∧ (sk'.wires g.reswire).flags = WireFlag.UNKNOWN_WIRE
      ∧ ∀ x, x ≠ g.reswire → sk'.wires x = sk.wires x := by
  intro k hk
  obtain ⟨sk, hrun, hi, hp, hb, _, hidx, _, hw⟩ :=
    input_rounds_state E s0 d hrole h0 hpc hargs k (by omega)
  have hargs_k : sk.inp_i = 0 → ∀ j, j < 32 →
      (sk.wires (arg_addr sk d.newbase j)).flags = WireFlag.KNOWN_WIRE
        ∧ (sk.wires (arg_addr sk d.newbase j)).value < 2 := by
    intro hz j hj
    have ha : arg_addr sk d.newbase j = arg_addr s0 d.newbase j := by simp [arg_addr, hb]
    rw [ha, hw _ (by intro i hik; omega)]
    exact hargs j hj
  have hS : (if sk.inp_i = 0 then arg_sum sk d.newbase else sk.inp_idx)
      = arg_sum s0 d.newbase := by
    by_cases hk0 : k = 0
    · rw [if_pos (by omega)]
      apply arg_sum_congr s0 sk d.newbase hb
      intro j _
      exact hw _ (by intro i hik; omega)
    · rw [if_neg (by omega)]
      exact hidx (by omega)
  obtain ⟨sk', cst, g, r, hc, hg, hr, _, _, hlog, hkey, hflag, _, hothers⟩ :=
    call_op_input_lt E sk d hrole (by omega) hargs_k
  rw [hS, hi, hb] at hg
  exact ⟨sk, sk', cst, g, r, hrun, hc, hg, hr, hlog, hkey, hflag, hothers⟩

/-- Witness for C6: round 3 of the role "bob" with frame size 128 in the sample
state. -/
theorem input_round_descriptor_witness :
    ∃ sk sk' cst g r,
      dispatch_n demoEnv (PCFOP.call ⟨⟨"bob"⟩, 128⟩) 3 demoState = Except.ok sk
      ∧ call_op demoEnv sk ⟨⟨"bob"⟩, 128⟩ = Except.ok sk'
      ∧ g = { wire1 := u32 (arg_sum demoState 128 + 3), wire2 := u32 (arg_sum demoState 128 + 3),
              reswire := u32 (demoState.base + 128 + 3), truth_table := 5,
              tag := if "bob" = "alice" then Tag.TAG_INPUT_A else Tag.TAG_INPUT_B }
      ∧ r = demoEnv.callback cst g
      ∧ sk'.log = Event.copied r (sk'.wires g.reswire).keydata :: Event.called g r
                  :: (delete_if_set sk g.reswire).log
      ∧ (sk'.wires g.reswire).keydata
          = demoEnv.copy_key (Event.called g r :: (delete_if_set sk g.reswire).log) r
      ∧ (sk'.wires g.reswire).flags = WireFlag.UNKNOWN_WIRE
      ∧ ∀ x, x ≠ g.reswire → sk'.wires x = sk.wires x :=
  input_round_descriptor demoEnv demoState ⟨⟨"bob"⟩, 128⟩ (Or.inr rfl) (by decide) (by decide)
    (by decide) 3 (by decide)

/-! ## C7: bulk copy between disjoint ranges -/

/-- The copy loop on iterations `i .. i + n - 1`, when no destination address of
these iterations is a source address of them and the destination addresses are
pairwise distinct: destination `a` receives value and flag of source `a` and a
clone of its key (no key if the source has none); wires that are no destination
keep their content. -/
theorem copy_loop_spec (E : PCFEnv) (D S : Nat) :
    ∀ (n i : Nat) (st : PCFState),
      (∀ a b, i ≤ a → a < i + n → i ≤ b → b < i + n → u32 (D + a) ≠ u32 (S + b)) →
      (∀ a b, i ≤ a → a < b → b < i + n → u32 (D + a) ≠ u32 (D + b)) →
      (∀ a, i ≤ a → a < i + n →
          ((copy_loop E D S n i st).wires (u32 (D + a))).value = (st.wires (u32 (S + a))).value
          ∧ ((copy_loop E D S n i st).wires (u32 (D + a))).flags
              = (st.wires (u32 (S + a))).flags
          ∧ ((st.wires (u32 (S + a))).keydata = 0 →
              ((copy_loop E D S n i st).wires (u32 (D + a))).keydata = 0)
          ∧ ((st.wires (u32 (S + a))).keydata ≠ 0 →
              ∃ h, ((copy_loop E D S n i st).wires (u32 (D + a))).keydata
                = E.copy_key h (st.wires (u32 (S + a))).keydata))
      ∧ (∀ x, (∀ a, i ≤ a → a < i + n → x ≠ u32 (D + a)) →
          (copy_loop E D S n i st).wires x = st.wires x) := by
  intro n
  induction n with
  | zero =>
    intro i st _ _
    exact ⟨fun a h1 h2 => by omega, fun x _ => rfl⟩
  | succ n ih =>
    intro i st hds hdd
    have hne : u32 (S + i) ≠ u32 (D + i) :=
      fun h => hds i i (le_refl _) (by omega) (le_refl _) (by omega) h.symm
    simp only [copy_loop]
    generalize hs4 : PCFState.set_flags _ _ _ = s4
    have hs4d : (s4.wires (u32 (D + i))).value = (st.wires (u32 (S + i))).value
        ∧ (s4.wires (u32 (D + i))).flags = (st.wires (u32 (S + i))).flags
        ∧ ((st.wires (u32 (S + i))).keydata = 0 → (s4.wires (u32 (D + i))).keydata = 0)
        ∧ ((st.wires (u32 (S + i))).keydata ≠ 0 →
            (s4.wires (u32 (D + i))).keydata
              = E.copy_key (delete_if_set st (u32 (D + i))).log
                  (st.wires (u32 (S + i))).keydata) := by
      rw [← hs4]
      by_cases hk : (st.wires (u32 (S + i))).keydata = 0
      · simp [hk, hne]
      · simp [hk, hne, copy_key_result]
    have hs4o : ∀ x, x ≠ u32 (D + i) → s4.wires x = st.wires x := by
      intro x hx
      rw [← hs4]
      by_cases hk : (st.wires (u32 (S + i))).keydata = 0
      · simp [hk, hx]
      · simp [hk, hx]
    obtain ⟨ihd, iho⟩ := ih (i + 1) s4
      (fun a b h1 h2 h3 h4 => hds a b (by omega) (by omega) (by omega) (by omega))
      (fun a b h1 h2 h3 => hdd a b (by omega) h2 (by omega))
    refine ⟨?_, ?_⟩
    · intro a h1 h2
      by_cases hai : a = i
      · subst hai
        rw [iho _ (fun b hb1 hb2 => hdd a b (le_refl _) (by omega) (by omega))]
        exact ⟨hs4d.1, hs4d.2.1, hs4d.2.2.1, fun hk => ⟨_, hs4d.2.2.2 hk⟩⟩
      · have hsrc : s4.wires (u32 (S + a)) = st.wires (u32 (S + a)) :=
          hs4o _ (fun h => hds i a (le_refl _) (by omega) h1 h2 h.symm)
        have := ihd a (by omega) (by omega)
        rw [hsrc] at this
        exact this
    · intro x hx
      rw [iho x (fun a h1 h2 => hx a (by omega) (by omega))]
      exact hs4o x (hx i (le_refl _) (by omega))

/-- Operation `const_op` touches only its destination wire. -/
theorem const_op_wires_other (st : PCFState) (c : const_op_data) (x : Nat)
    (hx : x ≠ u32 (c.dest + st.base)) : (const_op st c).wires x = st.wires x := by
  simp [const_op, hx]

/-- Claim C7: when the source range and the destination range of a `copy_op` of
width `w` are disjoint, each destination wire `i < w` ends with the value and flag
the source wire `i` had before, and with a clone of its key (no key if the source
held none); every wire outside the destination range, in particular every source
wire, is unchanged; and a later `const_op` on a destination wire leaves the source
wires as they were before the copy. -/
theorem copy_op_disjoint (E : PCFEnv) (st : PCFState) (data : copy_op_data)
    (hdisj : ∀ i, i < data.width → ∀ j, j < data.width →
      u32 (u32 (data.dest + st.base) + i) ≠ u32 (u32 (data.source + st.base) + j)) :
    (∀ i, i < data.width →
        ((copy_op E st data).wires (u32 (u32 (data.dest + st.base) + i))).value
          = (st.wires (u32 (u32 (data.source + st.base) + i))).value
        ∧ ((copy_op E st data).wires (u32 (u32 (data.dest + st.base) + i))).flags
          = (st.wires (u32 (u32 (data.source + st.base) + i))).flags
        ∧ ((st.wires (u32 (u32 (data.source + st.base) + i))).keydata = 0 →
            ((copy_op E st data).wires (u32 (u32 (data.dest + st.base) + i))).keydata = 0)
        ∧ ((st.wires (u32 (u32 (data.source + st.base) + i))).keydata ≠ 0 →
            ∃ h, ((copy_op E st data).wires (u32 (u32 (data.dest + st.base) + i))).keydata
              = E.copy_key h (st.wires (u32 (u32 (data.source + st.base) + i))).keydata))
    ∧ (∀ x, (∀ i, i < data.width → x ≠ u32 (u32 (data.dest + st.base) + i)) →
        (copy_op E st data).wires x = st.wires x)
    ∧ (∀ j, j < data.width →
        (copy_op E st data).wires (u32 (u32 (data.source + st.base) + j))
          = st.wires (u32 (u32 (data.source + st.base) + j)))
    ∧ (∀ (c : const_op_data) (i : Nat), i < data.width →
        u32 (c.dest + (copy_op E st data).base) = u32 (u32 (data.dest + st.base) + i) →
        ∀ j, j < data.width →
          (const_op (copy_op E st data) c).wires (u32 (u32 (data.source + st.base) + j))
            = st.wires (u32 (u32 (data.source + st.base) + j))) := by
  have hdd : ∀ a b, 0 ≤ a → a < b → b < 0 + data.width →
      u32 (u32 (data.dest + st.base) + a) ≠ u32 (u32 (data.dest + st.base) + b) := by
    intro a b _ hab hb heq
    have hw : 0 < data.width := by omega
    have h1 := hdisj ((u32 (data.source + st.base) % 4294967296 + 4294967296
        - u32 (data.dest + st.base) % 4294967296) % 4294967296)
    have h2 := fun h => h1 h 0 hw
    unfold u32 at h2 heq
    omega
  obtain ⟨hd, ho⟩ := copy_loop_spec E (u32 (data.dest + st.base)) (u32 (data.source + st.base))
    data.width 0 st
    (fun a b _ ha _ hb => hdisj a (by omega) b (by omega)) hdd
  have hsrc : ∀ j, j < data.width →
      (copy_op E st data).wires (u32 (u32 (data.source + st.base) + j))
        = st.wires (u32 (u32 (data.source + st.base) + j)) :=
    fun j hj => ho _ (fun a _ ha h => hdisj a (by omega) j hj h.symm)
  refine ⟨fun i hi => hd i (Nat.zero_le _) (by omega),
    fun x hx => ho x (fun a _ ha => hx a (by omega)), hsrc, ?_⟩
  intro c i hi hc j hj
  rw [const_op_wires_other _ _ _ (by rw [hc]; exact fun h => hdisj i hi j hj h.symm)]
  exact hsrc j hj

/-- Witness for C7: copy of the wires 7, 8, 9 of the sample state to the wires 20,
21, 22. -/
theorem copy_op_disjoint_witness :
    (copy_op demoEnv demoState ⟨20, 7, 3⟩).wires (u32 (u32 (7 + demoState.base) + 1))
      = demoState.wires (u32 (u32 (7 + demoState.base) + 1)) :=
  (copy_op_disjoint demoEnv demoState ⟨20, 7, 3⟩ (by decide)).2.2.1 1 (by decide)

/-! ## C8: delegated gate evaluation -/

/-- Releasing and clearing the key of a wire changes no flag. -/
theorem clear_key_flags (st : PCFState) (a x : Nat) :
    (((delete_if_set st a).set_keydata a 0).wires x).flags = (st.wires x).flags := by
  simp only [set_keydata_wires, delete_if_set_wires]; split <;> rfl

/-- Releasing and clearing the key of a wire changes no value. -/
theorem clear_key_value (st : PCFState) (a x : Nat) :
    (((delete_if_set st a).set_keydata a 0).wires x).value = (st.wires x).value := by
  simp only [set_keydata_wires, delete_if_set_wires]; split <;> rfl

/-- Releasing and clearing the key of a wire leaves the keys of the other wires. -/
theorem clear_key_keydata (st : PCFState) (a x : Nat) (hx : x ≠ a) :
    (((delete_if_set st a).set_keydata a 0).wires x).keydata = (st.wires x).keydata := by
  simp [hx]

/-- Claim C8: with an empty pending-gate guard, a truth table below 16, an operand
wire that is not Known, keys on both operand wires and a result wire distinct from
both, `gate_op` succeeds; it calls the callback exactly once, on the descriptor `g`
made of the three absolute wire addresses, the truth table of the instruction and
the tag Internal; afterwards the result wire is Unknown and holds the clone of the
key `r` returned by the callback, and every other wire is unchanged. -/
theorem gate_op_delegated (E : PCFEnv) (st : PCFState) (data : PCFGate)
    (hguard : st.curgate = GatePtr.null) (htab : data.truth_table < 16)
    (hunk : (st.wires (u32 (data.wire1 + st.base))).flags ≠ WireFlag.KNOWN_WIRE
          ∨ (st.wires (u32 (data.wire2 + st.base))).flags ≠ WireFlag.KNOWN_WIRE)
    (hk1 : (st.wires (u32 (data.wire1 + st.base))).keydata ≠ 0)
    (hk2 : (st.wires (u32 (data.wire2 + st.base))).keydata ≠ 0)
    (hd1 : u32 (data.reswire + st.base) ≠ u32 (data.wire1 + st.base))
    (hd2 : u32 (data.reswire + st.base) ≠ u32 (data.wire2 + st.base)) :
    ∃ st' cst g r, gate_op E st data = Except.ok st'
      ∧ g = { wire1 := u32 (data.wire1 + st.base), wire2 := u32 (data.wire2 + st.base),
              reswire := u32 (data.reswire + st.base), truth_table := data.truth_table,
              tag := Tag.TAG_INTERNAL }
      ∧ r = E.callback cst g
      ∧ st'.log = Event.copied r (st'.wires g.reswire).keydata :: Event.called g r
                  :: (delete_if_set st g.reswire).log
      ∧ callback_count st'.log = callback_count st.log + 1
      ∧ (st'.wires g.reswire).flags = WireFlag.UNKNOWN_WIRE
      ∧ (st'.wires g.reswire).keydata
          = E.copy_key (Event.called g r :: (delete_if_set st g.reswire).log) r
      ∧ ∀ x, x ≠ g.reswire → st'.wires x = st.wires x := by
  have hgo : gate_op E st data = Except.ok
      (gate_delegate E
        ((delete_if_set st (u32 (data.reswire + st.base))).set_keydata
          (u32 (data.reswire + st.base)) 0)
        ⟨u32 (data.wire1 + st.base), u32 (data.wire2 + st.base),
          u32 (data.reswire + st.base), data.truth_table, Tag.TAG_INTERNAL⟩) := by
    unfold gate_op
    simp only [clear_key_flags, clear_key_keydata _ _ _ (Ne.symm hd1),
      clear_key_keydata _ _ _ (Ne.symm hd2)]
    rw [if_neg (by simp [hguard]), if_neg (by simp [htab]), if_pos hunk,
      if_neg (by simp [hk1, hk2])]
  refine ⟨_, gate_callback_state
      ((delete_if_set st (u32 (data.reswire + st.base))).set_keydata
        (u32 (data.reswire + st.base)) 0)
      ⟨u32 (data.wire1 + st.base), u32 (data.wire2 + st.base),
        u32 (data.reswire + st.base), data.truth_table, Tag.TAG_INTERNAL⟩,
    _, _, hgo, rfl, rfl, ?_, ?_, ?_, ?_, ?_⟩
  · simp [gate_delegate, gate_callback_state, after_copy_key, after_callback, copy_key_result,
      delete_if_set]
  · simp [gate_delegate, gate_callback_state, after_copy_key, after_callback, callback_count,
      delete_if_set]
    split <;> simp [callback_count]
  · simp [gate_delegate]
  · simp [gate_delegate, gate_callback_state, after_copy_key, after_callback, copy_key_result,
      delete_if_set]
  · intro x hx
    simp [gate_delegate, gate_callback_state, hx]

/-- Witness for C8: a gate on the Unknown wires 8 and 9 of the sample state, with
result wire 10. -/
theorem gate_op_delegated_witness :
    ∃ st' cst g r, gate_op demoEnv demoState ⟨8, 9, 10, 6, Tag.TAG_INTERNAL⟩ = Except.ok st'
      ∧ g = { wire1 := u32 (8 + demoState.base), wire2 := u32 (9 + demoState.base),
              reswire := u32 (10 + demoState.base), truth_table := 6,
              tag := Tag.TAG_INTERNAL }
      ∧ r = demoEnv.callback cst g
      ∧ st'.log = Event.copied r (st'.wires g.reswire).keydata :: Event.called g r
                  :: (delete_if_set demoState g.reswire).log
      ∧ callback_count st'.log = callback_count demoState.log + 1
      ∧ (st'.wires g.reswire).flags = WireFlag.UNKNOWN_WIRE
      ∧ (st'.wires g.reswire).keydata
          = demoEnv.copy_key (Event.called g r :: (delete_if_set demoState g.reswire).log) r
      ∧ ∀ x, x ≠ g.reswire → st'.wires x = demoState.wires x :=
  gate_op_delegated demoEnv demoState ⟨8, 9, 10, 6, Tag.TAG_INTERNAL⟩
    (by decide) (by decide) (by decide) (by decide) (by decide) (by decide) (by decide)

/-! ## C9: the pending-gate guard after a delegated gate -/

/-- Result of `gate_op` whenever it takes the delegated branch and completes. -/
theorem delegated_result_eq (E : PCFEnv) (st st' : PCFState) (data : PCFGate)
    (hunk : (st.wires (u32 (data.wire1 + st.base))).flags ≠ WireFlag.KNOWN_WIRE
          ∨ (st.wires (u32 (data.wire2 + st.base))).flags ≠ WireFlag.KNOWN_WIRE)
    (hok : gate_op E st data = Except.ok st') :
    st' = gate_delegate E
      ((delete_if_set st (u32 (data.reswire + st.base))).set_keydata
        (u32 (data.reswire + st.base)) 0)
      ⟨u32 (data.wire1 + st.base), u32 (data.wire2 + st.base),
        u32 (data.reswire + st.base), data.truth_table, Tag.TAG_INTERNAL⟩ := by
  unfold gate_op at hok
  simp only [clear_key_flags] at hok
  rw [if_pos hunk] at hok
  split at hok
  · cases hok
  · split at hok
    · cases hok
    · split at hok
      · cases hok
      · injection hok with h
        exact h.symm

/-- With an empty pending-gate guard, a failure of `gate_op` is never the reentrancy
failure. -/
theorem gate_op_error_kind (E : PCFEnv) (s : PCFState) (data : PCFGate) (f : Fault)
    (hnull : s.curgate = GatePtr.null) (hf : gate_op E s data = Except.error f) :
    f.err ≠ Err.GateReentrancy := by
  revert hf
  unfold gate_op
  dsimp only
  rw [if_neg (by simp [hnull])]
  split_ifs <;> intro hf <;> cases hf <;> simp

/-- Counterexample to C9: in the sample state the gate on the Unknown wires 8 and 9
takes the delegated branch and completes; the guard of the resulting state is not
empty, and a second `gate_op` executed on it fails the reentrancy check. -/
theorem gate_guard_not_cleared :
    (demoState.wires (u32 (8 + demoState.base))).flags ≠ WireFlag.KNOWN_WIRE
      ∧ ∃ st', gate_op demoEnv demoState ⟨8, 9, 10, 6, Tag.TAG_INTERNAL⟩ = Except.ok st'
          ∧ st'.curgate ≠ GatePtr.null
          ∧ ∃ f, gate_op demoEnv st' ⟨8, 9, 11, 6, Tag.TAG_INTERNAL⟩ = Except.error f
              ∧ f.err = Err.GateReentrancy :=
  ⟨by decide, _, rfl, by decide, _, rfl, rfl⟩

/-- Claim C9 as amended: when `gate_op` takes the delegated branch (some operand not
Known) and completes, the pending-gate guard of the resulting state is not empty: it
points at the scratch descriptor, which holds the descriptor of this gate tagged
Internal.  Any `gate_op` executed directly on the resulting state fails the
reentrancy check; once the guard has been reset to empty, a following `gate_op` does
not fail that check. -/
theorem guard_after_delegation (E : PCFEnv) (st st' : PCFState) (data : PCFGate)
    (hunk : (st.wires (u32 (data.wire1 + st.base))).flags ≠ WireFlag.KNOWN_WIRE
          ∨ (st.wires (u32 (data.wire2 + st.base))).flags ≠ WireFlag.KNOWN_WIRE)
    (hok : gate_op E st data = Except.ok st') :
    st'.curgate = GatePtr.global_gate
      ∧ st'.gate_scratch = { wire1 := u32 (data.wire1 + st.base),
                             wire2 := u32 (data.wire2 + st.base),
                             reswire := u32 (data.reswire + st.base),
                             truth_table := data.truth_table, tag := Tag.TAG_INTERNAL }
      ∧ (∀ data2, gate_op E st' data2 = Except.error ⟨Err.GateReentrancy, st'⟩)
      ∧ (∀ data2 f, gate_op E { st' with curgate := GatePtr.null } data2 = Except.error f →
          f.err ≠ Err.GateReentrancy) := by
  have heq := delegated_result_eq E st st' data hunk hok
  have hcur : st'.curgate = GatePtr.global_gate := by rw [heq]; rfl
  refine ⟨hcur, by rw [heq]; rfl, ?_, ?_⟩
  · intro data2
    unfold gate_op
    rw [if_pos (by rw [hcur]; decide)]
  · intro data2 f hf
    exact gate_op_error_kind E _ data2 f rfl hf

/-- Witness for the amended C9: the gate on the Unknown wires 8 and 9 of the sample
state. -/
theorem guard_after_delegation_witness :
    (gate_delegate demoEnv
        ((delete_if_set demoState (u32 (10 + demoState.base))).set_keydata
          (u32 (10 + demoState.base)) 0)
        ⟨u32 (8 + demoState.base), u32 (9 + demoState.base), u32 (10 + demoState.base), 6,
          Tag.TAG_INTERNAL⟩).curgate = GatePtr.global_gate :=
  (guard_after_delegation demoEnv demoState _ ⟨8, 9, 10, 6, Tag.TAG_INTERNAL⟩
    (by decide) rfl).1

/-! ## C10: failures of `gate_op` -/

/-- Claim C10: `gate_op` fails when the pending-gate guard is not empty, when the
truth table is 16 or more, and when both operand wires are Known but one of them has
a value of 2 or more.  No callback is made before the failure.  The failure is
`GateReentrancy` in the first case, `OutOfRangeTruthTable` when the guard is empty
and the truth table is 16 or more, and `WireTypeViolation` in the third case when
the two entry checks pass. -/
theorem gate_op_failures (E : PCFEnv) (st : PCFState) (data : PCFGate)
    (h : st.curgate ≠ GatePtr.null ∨ 16 ≤ data.truth_table
      ∨ ((st.wires (u32 (data.wire1 + st.base))).flags = WireFlag.KNOWN_WIRE
          ∧ (st.wires (u32 (data.wire2 + st.base))).flags = WireFlag.KNOWN_WIRE
          ∧ (2 ≤ (st.wires (u32 (data.wire1 + st.base))).value
              ∨ 2 ≤ (st.wires (u32 (data.wire2 + st.base))).value))) :
    ∃ f, gate_op E st data = Except.error f
      ∧ callback_count f.st.log = callback_count st.log
      ∧ (st.curgate ≠ GatePtr.null → f.err = Err.GateReentrancy)
      ∧ (st.curgate = GatePtr.null → 16 ≤ data.truth_table →
          f.err = Err.OutOfRangeTruthTable)
      ∧ (st.curgate = GatePtr.null → data.truth_table < 16 →
          f.err = Err.WireTypeViolation) := by
  unfold gate_op
  by_cases hg : st.curgate = GatePtr.null
  · by_cases ht : data.truth_table < 16
    · have h3 : (st.wires (u32 (data.wire1 + st.base))).flags = WireFlag.KNOWN_WIRE
          ∧ (st.wires (u32 (data.wire2 + st.base))).flags = WireFlag.KNOWN_WIRE
          ∧ (2 ≤ (st.wires (u32 (data.wire1 + st.base))).value
              ∨ 2 ≤ (st.wires (u32 (data.wire2 + st.base))).value) := by
        rcases h with h | h | h
        · exact absurd hg h
        · omega
        · exact h
      simp only [clear_key_flags, clear_key_value]
      rw [if_neg (by simp [hg]), if_neg (by simp [ht]), if_neg (by simp [h3.1, h3.2.1]),
        if_pos (by omega)]
      exact ⟨_, rfl, by simp [callback_count_delete_if_set], fun hn => absurd hg hn,
        fun _ h16 => by omega, fun _ _ => rfl⟩
    · rw [if_neg (by simp [hg]), if_pos ht]
      exact ⟨_, rfl, rfl, fun hn => absurd hg hn, fun _ _ => rfl, fun _ hlt => absurd hlt ht⟩
  · rw [if_pos hg]
    exact ⟨_, rfl, rfl, fun _ => rfl, fun h0 => absurd h0 hg, fun h0 => absurd h0 hg⟩

/-- Witness for C10: a gate with truth table 16 on the sample state. -/
theorem gate_op_failures_witness :
    ∃ f, gate_op demoEnv demoState ⟨0, 1, 2, 16, Tag.TAG_INTERNAL⟩ = Except.error f
      ∧ callback_count f.st.log = callback_count demoState.log
      ∧ (demoState.curgate ≠ GatePtr.null → f.err = Err.GateReentrancy)
      ∧ (demoState.curgate = GatePtr.null → 16 ≤ 16 → f.err = Err.OutOfRangeTruthTable)
      ∧ (demoState.curgate = GatePtr.null → 16 < 16 → f.err = Err.WireTypeViolation) :=
  gate_op_failures demoEnv demoState ⟨0, 1, 2, 16, Tag.TAG_INTERNAL⟩ (Or.inr (Or.inl (by decide)))

/-! ## C11: load constant -/

/-- Claim C11: after `const_op` with destination `d` and literal `v` the wire at
`d + base` has value `v`, flag Known and no key, its previous key (if any) having
been released by a call of `delete_key`; every other wire, the program counter, the
frame base and the call stack are unchanged. -/
theorem const_op_effect (st : PCFState) (data : const_op_data) :
    (const_op st data).wires (u32 (data.dest + st.base))
        = { value := data.value, flags := WireFlag.KNOWN_WIRE, keydata := 0 }
      ∧ (const_op st data).log
          = (if (st.wires (u32 (data.dest + st.base))).keydata ≠ 0
              then Event.deleted (st.wires (u32 (data.dest + st.base))).keydata :: st.log
              else st.log)
      ∧ (∀ x, x ≠ u32 (data.dest + st.base) → (const_op st data).wires x = st.wires x)
      ∧ (const_op st data).PC = st.PC
      ∧ (const_op st data).base = st.base
      ∧ (const_op st data).call_stack = st.call_stack := by
  refine ⟨by simp [const_op], by simp [const_op, delete_if_set], ?_, rfl, rfl, rfl⟩
  intro x hx
  simp [const_op, hx]

/-- Witness for C11, the scenario of the spec: `const(wire=5, value=1)` on the
sample state; wire 8 is untouched. -/
theorem const_op_effect_witness :
    (const_op demoState ⟨5, 1⟩).wires (u32 (5 + demoState.base))
        = { value := 1, flags := WireFlag.KNOWN_WIRE, keydata := 0 }
      ∧ (const_op demoState ⟨5, 1⟩).wires 8 = demoState.wires 8 :=
  ⟨(const_op_effect demoState ⟨5, 1⟩).1,
    (const_op_effect demoState ⟨5, 1⟩).2.2.1 8 (by decide)⟩

/-! ## C12: return -/

/-- Claim C12: on an empty call stack `ret_op` sets the done status to `-1` (not
zero) and leaves the call stack empty and the program counter, frame base and wire
bank unchanged; on a call stack with top record `rec` it leaves the done status
unchanged, removes exactly that record and sets the program counter to its return
address. -/
theorem ret_op_effect (st : PCFState) :
    (st.call_stack = [] →
        (ret_op st).done = -1 ∧ (ret_op st).done ≠ 0 ∧ (ret_op st).call_stack = []
        ∧ (ret_op st).PC = st.PC ∧ (ret_op st).base = st.base
        ∧ (ret_op st).wires = st.wires)
      ∧ (∀ rec rest, st.call_stack = rec :: rest →
          (ret_op st).done = st.done ∧ (ret_op st).call_stack = rest
          ∧ (ret_op st).PC = rec.ret_pc) := by
  constructor
  · intro h
    simp [ret_op, h]
  · intro rec rest h
    simp [ret_op, h]

/-- Witness for C12, the scenario of the spec: `ret` on the empty call stack of the
sample state. -/
theorem ret_op_effect_witness :
    (ret_op demoState).done = -1 ∧ (ret_op demoState).done ≠ 0
      ∧ (ret_op demoState).call_stack = []
      ∧ (ret_op demoState).PC = demoState.PC ∧ (ret_op demoState).base = demoState.base
      ∧ (ret_op demoState).wires = demoState.wires :=
  (ret_op_effect demoState).1 rfl

/-! ## C18: address materialisation -/

/-- Claim C18: when the wire at `idx + base` is Known with value `v`, `mkptr_op`
succeeds and that wire then has the value `v + base` (32-bit sum) with its flag and
key unchanged, while every other wire, the program counter, the frame base and the
call stack are unchanged; when that wire is not Known, `mkptr_op` fails with
`WireTypeViolation` in the unchanged state. -/
theorem mkptr_op_effect (st : PCFState) (idx : Nat) :
    ((st.wires (u32 (idx + st.base))).flags = WireFlag.KNOWN_WIRE →
        ∃ st', mkptr_op st idx = Except.ok st'
          ∧ st'.wires (u32 (idx + st.base))
              = { st.wires (u32 (idx + st.base)) with
                  value := u32 ((st.wires (u32 (idx + st.base))).value + st.base) }
          ∧ (∀ x, x ≠ u32 (idx + st.base) → st'.wires x = st.wires x)
          ∧ st'.PC = st.PC ∧ st'.base = st.base ∧ st'.call_stack = st.call_stack)
      ∧ ((st.wires (u32 (idx + st.base))).flags ≠ WireFlag.KNOWN_WIRE →
          mkptr_op st idx = Except.error ⟨Err.WireTypeViolation, st⟩) := by
  constructor
  · intro h
    refine ⟨st.set_value (u32 (idx + st.base))
        (u32 ((st.wires (u32 (idx + st.base))).value + st.base)),
      by simp [mkptr_op, h], by simp, ?_, rfl, rfl, rfl⟩
    intro x hx
    simp [hx]
  · intro h
    simp [mkptr_op, h]

/-- Witness for C18: `mkptr` on the Known wire 7 (value 5) of the sample state. -/
theorem mkptr_op_effect_witness :
    ∃ st', mkptr_op demoState 7 = Except.ok st'
      ∧ st'.wires (u32 (7 + demoState.base))
          = { demoState.wires (u32 (7 + demoState.base)) with
              value := u32 ((demoState.wires (u32 (7 + demoState.base))).value
                        + demoState.base) }
      ∧ (∀ x, x ≠ u32 (7 + demoState.base) → st'.wires x = demoState.wires x)
      ∧ st'.PC = demoState.PC ∧ st'.base = demoState.base
      ∧ st'.call_stack = demoState.call_stack :=
  (mkptr_op_effect demoState 7).1 (by decide)

/-! ## C19: a gate whose result wire is one of its operands -/

/-- Claim C19: a `gate_op` whose result wire is the wire of one of its operands and
whose operands are not both Known always fails, without any callback: when the two
entry checks pass, the key of the result wire has been released and cleared before
the check that both operands hold keys, so that check fails (`MissingKey`) whatever
keys the wires held. -/
theorem gate_op_result_is_operand (E : PCFEnv) (st : PCFState) (data : PCFGate)
    (hsame : u32 (data.reswire + st.base) = u32 (data.wire1 + st.base)
           ∨ u32 (data.reswire + st.base) = u32 (data.wire2 + st.base))
    (hunk : (st.wires (u32 (data.wire1 + st.base))).flags ≠ WireFlag.KNOWN_WIRE
          ∨ (st.wires (u32 (data.wire2 + st.base))).flags ≠ WireFlag.KNOWN_WIRE) :
    ∃ f, gate_op E st data = Except.error f
      ∧ callback_count f.st.log = callback_count st.log
      ∧ (st.curgate = GatePtr.null → data.truth_table < 16 → f.err = Err.MissingKey) := by
  unfold gate_op
  by_cases hg : st.curgate = GatePtr.null
  · by_cases ht : data.truth_table < 16
    · simp only [clear_key_flags]
      rw [if_neg (by simp [hg]), if_neg (by simp [ht]), if_pos hunk, if_pos (by
        rcases hsame with h | h
        · simp [← h]
        · simp [← h])]
      exact ⟨_, rfl, by simp [callback_count_delete_if_set], fun _ _ => rfl⟩
    · rw [if_neg (by simp [hg]), if_pos ht]
      exact ⟨_, rfl, rfl, fun _ hlt => absurd hlt ht⟩
  · rw [if_pos hg]
    exact ⟨_, rfl, rfl, fun h0 => absurd h0 hg⟩

/-- Witness for C19: on the sample state, a gate on the Unknown wires 8 and 9, both
holding keys, with result wire 8. -/
theorem gate_op_result_is_operand_witness :
    ∃ f, gate_op demoEnv demoState ⟨8, 9, 8, 6, Tag.TAG_INTERNAL⟩ = Except.error f
      ∧ callback_count f.st.log = callback_count demoState.log
      ∧ (demoState.curgate = GatePtr.null → 6 < 16 → f.err = Err.MissingKey) :=
  gate_op_result_is_operand demoEnv demoState ⟨8, 9, 8, 6, Tag.TAG_INTERNAL⟩
    (Or.inl (by decide)) (Or.inl (by decide))

/-! ## C13: the frame base accumulates -/

/-- A general call whose label is present pushes the program counter, jumps and adds
the frame size to the frame base. -/
theorem call_op_general (E : PCFEnv) (st : PCFState) (d : call_op_data) (t : Nat)
    (hg : is_general d) (hl : E.labels d.target.key = some t) :
    call_op E st d = Except.ok
      { st with call_stack := { ret_pc := st.PC } :: st.call_stack, PC := t,
                base := u32 (st.base + d.newbase) } := by
  obtain ⟨h1, h2, h3, h4⟩ := hg
  simp [call_op, call_general, h1, h2, h3, h4, hl]

/-- The dispatcher after a successful operation. -/
theorem dispatch_ok (E : PCFEnv) (op : PCFOP) (st s1 : PCFState)
    (h : op.exec E st = Except.ok s1) :
    dispatch E op st = Except.ok { s1 with PC := u32 (s1.PC + 1) } := by
  simp only [dispatch, h]

/-- Operation `ret_op` keeps the frame base. -/
theorem ret_op_base (s : PCFState) : (ret_op s).base = s.base := by
  simp only [ret_op]
  split <;> rfl

/-- Dispatching a return or a general call with a known label succeeds; the frame
base grows by the frame size of a call and is kept by a return. -/
theorem dispatch_call_or_ret (E : PCFEnv) (st : PCFState) (op : PCFOP)
    (hb : st.base < 4294967296) (h : call_or_ret E op) :
    ∃ st', dispatch E op st = Except.ok st'
      ∧ st'.base = u32 (st.base + frame_sizes [op]) := by
  cases op with
  | call d =>
    obtain ⟨hg, t, hl⟩ := h
    exact ⟨_, dispatch_ok E _ st _ (call_op_general E st d t hg hl), rfl⟩
  | ret =>
    refine ⟨_, dispatch_ok E PCFOP.ret st (ret_op st) rfl, ?_⟩
    show (ret_op st).base = u32 (st.base + 0)
    rw [ret_op_base]
    unfold u32
    omega
  | nop => exact absurd h (by simp [call_or_ret])
  | initbase _ => exact absurd h (by simp [call_or_ret])
  | mkptr _ => exact absurd h (by simp [call_or_ret])
  | const _ => exact absurd h (by simp [call_or_ret])
  | bits _ => exact absurd h (by simp [call_or_ret])
  | gate _ => exact absurd h (by simp [call_or_ret])
  | copy _ => exact absurd h (by simp [call_or_ret])
  | indir_copy _ => exact absurd h (by simp [call_or_ret])
  | copy_indir _ => exact absurd h (by simp [call_or_ret])

/-- The frame sizes of a list of instructions add up. -/
theorem frame_sizes_cons (op : PCFOP) (ops : List PCFOP) :
    frame_sizes (op :: ops) = frame_sizes [op] + frame_sizes ops := by
  cases op <;> simp [frame_sizes]

/-- A sequence of general calls and returns runs to the end, and its frame base is
the initial base plus the frame sizes of its calls, in 32-bit arithmetic. -/
theorem run_calls_base (E : PCFEnv) :
    ∀ (ops : List PCFOP) (st : PCFState), st.base < 4294967296 →
      (∀ op, op ∈ ops → call_or_ret E op) →
      ∃ st', run_ops E ops st = Except.ok st'
        ∧ st'.base = u32 (st.base + frame_sizes ops) := by
  intro ops
  induction ops with
  | nil =>
    intro st hb _
    refine ⟨st, rfl, ?_⟩
    simp only [frame_sizes]
    unfold u32
    omega
  | cons op ops ih =>
    intro st hb h
    obtain ⟨s1, hd, hb1⟩ := dispatch_call_or_ret E st op hb (h op (List.mem_cons_self _ _))
    have hlt : s1.base < 4294967296 := by rw [hb1]; unfold u32; omega
    obtain ⟨s2, hr, hb2⟩ := ih s1 hlt (fun o ho => h o (List.mem_cons_of_mem _ ho))
    refine ⟨s2, by simp only [run_ops, hd, hr], ?_⟩
    rw [hb2, hb1, frame_sizes_cons op ops]
    unfold u32
    omega

/-- Claim C13: from a state whose frame base `b` is a 32-bit word, a general call
with frame size `newbase` (label present) sets the frame base to `b + newbase` in
32-bit arithmetic; `ret_op` never changes the frame base; after a general call
followed by a return the frame base is `b + newbase`, which differs from `b` when
`0 < newbase < 2^32`; and after any sequence of general calls and returns the frame
base is `b` plus the sum of the frame sizes of the calls executed. -/
theorem frame_base_accumulates (E : PCFEnv) (st : PCFState) (hb : st.base < 4294967296) :
    (∀ d t, is_general d → E.labels d.target.key = some t →
        ∃ st', call_op E st d = Except.ok st' ∧ st'.base = u32 (st.base + d.newbase))
    ∧ (∀ s : PCFState, (ret_op s).base = s.base)
    ∧ (∀ d t, is_general d → E.labels d.target.key = some t →
        ∃ st1 st2, dispatch E (PCFOP.call d) st = Except.ok st1
          ∧ dispatch E PCFOP.ret st1 = Except.ok st2
          ∧ st2.base = u32 (st.base + d.newbase)
          ∧ (0 < d.newbase → d.newbase < 4294967296 → st2.base ≠ st.base))
    ∧ (∀ ops, (∀ op, op ∈ ops → call_or_ret E op) →
        ∃ st', run_ops E ops st = Except.ok st'
          ∧ st'.base = u32 (st.base + frame_sizes ops)) := by
  refine ⟨?_, ret_op_base, ?_, fun ops h => run_calls_base E ops st hb h⟩
  · intro d t hg hl
    exact ⟨_, call_op_general E st d t hg hl, rfl⟩
  · intro d t hg hl
    refine ⟨_, _, dispatch_ok E _ st _ (call_op_general E st d t hg hl),
      dispatch_ok E PCFOP.ret _ _ rfl, ?_, ?_⟩
    · exact ret_op_base _
    · intro h0 h1
      show (ret_op _).base ≠ st.base
      rw [ret_op_base]
      show u32 (st.base + d.newbase) ≠ st.base
      unfold u32
      omega

/-- Witness for C13: in the sample environment and state, the label `f` called
twice with frame sizes 64 and 16, each call followed by a return. -/
theorem frame_base_accumulates_witness :
    ∃ st', run_ops demoEnv
        [PCFOP.call ⟨⟨"f"⟩, 64⟩, PCFOP.ret, PCFOP.call ⟨⟨"f"⟩, 16⟩, PCFOP.ret] demoState
          = Except.ok st'
      ∧ st'.base = u32 (demoState.base + frame_sizes
          [PCFOP.call ⟨⟨"f"⟩, 64⟩, PCFOP.ret, PCFOP.call ⟨⟨"f"⟩, 16⟩, PCFOP.ret]) :=
  (frame_base_accumulates demoEnv demoState (by decide)).2.2.2 _ (by
    intro op hop
    simp only [List.mem_cons, List.mem_singleton, List.not_mem_nil, or_false] at hop
    rcases hop with h | h | h | h <;> subst h
    · exact ⟨⟨by decide, by decide, by decide, by decide⟩, 10, rfl⟩
    · trivial
    · exact ⟨⟨by decide, by decide, by decide, by decide⟩, 10, rfl⟩
    · trivial)

/-! ## C14: the output roles -/

/-- An output role call runs `output_round` with the tag of the role. -/
theorem call_op_output (E : PCFEnv) (s : PCFState) (d : call_op_data)
    (hrole : d.target.key = "output_alice" ∨ d.target.key = "output_bob") :
    call_op E s d = Except.ok (output_round E s d.newbase (output_tag d.target.key)) := by
  have h1 : ("output_alice" : String) ≠ "alice" := by decide
  have h2 : ("output_alice" : String) ≠ "bob" := by decide
  have h3 : ("output_bob" : String) ≠ "alice" := by decide
  have h4 : ("output_bob" : String) ≠ "bob" := by decide
  have h5 : ("output_bob" : String) ≠ "output_alice" := by decide
  rcases hrole with h | h
  · simp [call_op, h, h1, h2, output_tag]
  · simp [call_op, h, h3, h4, h5, output_tag]

/-- State reached after `k ≤ 32` dispatches of an output role call started with the
cursor at 0: the cursor is `k`, `k` callbacks were made, and the frame base, the
wire bank and the call stack are those of the start. -/
theorem output_rounds_state (E : PCFEnv) (s0 : PCFState) (d : call_op_data)
    (hrole : d.target.key = "output_alice" ∨ d.target.key = "output_bob")
    (h0 : s0.inp_i = 0) :
    ∀ k, k ≤ 32 → ∃ sk, dispatch_n E (PCFOP.call d) k s0 = Except.ok sk
      ∧ sk.inp_i = k ∧ sk.base = s0.base ∧ sk.wires = s0.wires
      ∧ sk.call_stack = s0.call_stack
      ∧ callback_count sk.log = callback_count s0.log + k := by
  intro k
  induction k with
  | zero => intro _; exact ⟨s0, rfl, h0, rfl, rfl, rfl, rfl⟩
  | succ k ih =>
    intro hk
    obtain ⟨sk, hrun, hi, hb, hw, hcs, hcc⟩ := ih (by omega)
    have hlt : sk.inp_i < 32 := by omega
    have h1 : u32 (sk.inp_i + 1) = k + 1 := by unfold u32; omega
    refine ⟨_, (dispatch_n_succ E _ k s0 sk hrun).trans
      (dispatch_ok E _ sk _ (call_op_output E sk d hrole)), ?_, ?_, ?_, ?_, ?_⟩
    · simp [output_round, hlt, h1, after_callback]
    · simp [output_round, hlt, after_callback, hb]
    · simp [output_round, hlt, after_callback, hw]
    · simp [output_round, hlt, after_callback, hcs]
    · simp [output_round, hlt, after_callback, callback_count, hcc]
      omega

/-- Claim C14: an output role call ("output_alice" or "output_bob") is dispatched
repeatedly from a state with the cursor step at 0.  In round `k < 32` the `call_op`
calls the callback once, on the descriptor whose three wire fields are
`base + newbase - 32 + k`, with truth table 5 and the tag of the role, and changes
no wire.  The `call_op` of dispatch 33 makes no callback and resets the cursor to 0.
After each of the 33 dispatches the wire bank, the call stack and the frame base
are those of the start. -/
theorem output_call_rounds (E : PCFEnv) (s0 : PCFState) (d : call_op_data)
    (hrole : d.target.key = "output_alice" ∨ d.target.key = "output_bob")
    (h0 : s0.inp_i = 0) :
    (∀ k, k < 32 → ∃ sk sk' cst g,
        dispatch_n E (PCFOP.call d) k s0 = Except.ok sk
        ∧ call_op E sk d = Except.ok sk'
        ∧ g = { wire1 := arg_addr s0 d.newbase k, wire2 := arg_addr s0 d.newbase k,
                reswire := arg_addr s0 d.newbase k, truth_table := 5,
                tag := if d.target.key = "output_alice" then Tag.TAG_OUTPUT_A
                       else Tag.TAG_OUTPUT_B }
        ∧ sk'.log = Event.called g (E.callback cst g) :: sk.log
        ∧ sk'.wires = sk.wires ∧ sk'.call_stack = sk.call_stack ∧ sk'.base = sk.base)
    ∧ (∃ s32 s32', dispatch_n E (PCFOP.call d) 32 s0 = Except.ok s32
        ∧ call_op E s32 d = Except.ok s32'
        ∧ s32'.log = s32.log ∧ s32'.inp_i = 0
        ∧ callback_count s32.log = callback_count s0.log + 32)
    ∧ (∀ k, k ≤ 33 → ∃ sk, dispatch_n E (PCFOP.call d) k s0 = Except.ok sk
        ∧ sk.wires = s0.wires ∧ sk.call_stack = s0.call_stack ∧ sk.base = s0.base) := by
  refine ⟨?_, ?_, ?_⟩
  · intro k hk
    obtain ⟨sk, hrun, hi, hb, _, _, _⟩ := output_rounds_state E s0 d hrole h0 k (by omega)
    have hlt : sk.inp_i < 32 := by omega
    have ha : u32sub (u32 (sk.base + d.newbase)) (u32sub 32 sk.inp_i)
        = arg_addr s0 d.newbase k := by
      rw [hb, hi]; unfold arg_addr u32sub u32; omega
    refine ⟨sk, _, { sk with inp_i := u32 (sk.inp_i + 1),
                             input_g := output_gate sk d.newbase sk.inp_i
                               (output_tag d.target.key) },
      _, hrun, call_op_output E sk d hrole, rfl, ?_, ?_, ?_, ?_⟩
    · simp [output_round, hlt, after_callback, output_gate, ha, output_tag]
    · simp [output_round, hlt, after_callback]
    · simp [output_round, hlt, after_callback]
    · simp [output_round, hlt, after_callback]
  · obtain ⟨s32, hrun, hi, _, _, _, hcc⟩ := output_rounds_state E s0 d hrole h0 32 (le_refl _)
    refine ⟨s32, _, hrun, call_op_output E s32 d hrole, ?_, ?_, hcc⟩
    · simp [output_round, hi]
    · simp [output_round, hi]
  · intro k hk
    by_cases hk32 : k ≤ 32
    · obtain ⟨sk, hrun, _, hb, hw, hcs, _⟩ := output_rounds_state E s0 d hrole h0 k hk32
      exact ⟨sk, hrun, hw, hcs, hb⟩
    · have hk33 : k = 32 + 1 := by omega
      subst hk33
      obtain ⟨s32, hrun, hi, hb, hw, hcs, _⟩ :=
        output_rounds_state E s0 d hrole h0 32 (le_refl _)
      refine ⟨_, (dispatch_n_succ E _ 32 s0 s32 hrun).trans
        (dispatch_ok E _ s32 _ (call_op_output E s32 d hrole)), ?_, ?_, ?_⟩
      · simp [output_round, hi, hw]
      · simp [output_round, hi, hcs]
      · simp [output_round, hi, hb]

/-- Witness for C14: the role "output_bob" with frame size 64 dispatched 33 times on
the sample state. -/
theorem output_call_rounds_witness :
    ∃ sk, dispatch_n demoEnv (PCFOP.call ⟨⟨"output_bob"⟩, 64⟩) 33 demoState = Except.ok sk
      ∧ sk.wires = demoState.wires ∧ sk.call_stack = demoState.call_stack
      ∧ sk.base = demoState.base :=
  (output_call_rounds demoEnv demoState ⟨⟨"output_bob"⟩, 64⟩ (Or.inr rfl) (by decide)).2.2
    33 (by decide)

/-! ## C15: the three copy operations share one loop -/

/-- The loop of `indir_copy_op` computes what the loop of `copy_op` computes. -/
theorem indir_copy_loop_eq (E : PCFEnv) (D S : Nat) :
    ∀ (n i : Nat) (st : PCFState),
      indir_copy_loop E D S n i st = copy_loop E D S n i st := by
  intro n
  induction n with
  | zero => intro i st; rfl
  | succ n ih =>
    intro i st
    simp only [indir_copy_loop, copy_loop]
    exact ih _ _

/-- The loop of `copy_indir_op` computes what the loop of `copy_op` computes. -/
theorem copy_indir_loop_eq (E : PCFEnv) (D S : Nat) :
    ∀ (n i : Nat) (st : PCFState),
      copy_indir_loop E D S n i st = copy_loop E D S n i st := by
  intro n
  induction n with
  | zero => intro i st; rfl
  | succ n ih =>
    intro i st
    simp only [copy_indir_loop, copy_loop]
    exact ih _ _

/-- The copy loop depends on its destination start only modulo `2^32`. -/
theorem copy_loop_dest_u32 (E : PCFEnv) (D D' S : Nat) (h : u32 D = u32 D') :
    ∀ (n i : Nat) (st : PCFState), copy_loop E D S n i st = copy_loop E D' S n i st := by
  intro n
  induction n with
  | zero => intro i st; rfl
  | succ n ih =>
    intro i st
    have ha : u32 (D + i) = u32 (D' + i) := by unfold u32 at *; omega
    simp only [copy_loop, ha]
    exact ih _ _

/-- Claim C15: `indir_copy_op(d, s, w)` yields the state of the copy loop of
`copy_op` run with the value stored in wire `d + base` (read before the loop) as
absolute destination start and `s + base` as absolute source start;
`copy_indir_op(d, s, w)` yields the state of that loop run with destination start
`d + base` and the value stored in wire `s + base` as source start; and when wire
`d + base` holds the value `d' + base`, `indir_copy_op(d, s, w)` and
`copy_op(d', s, w)` produce equal states. -/
theorem copy_modes_agree (E : PCFEnv) (st : PCFState) (data : copy_op_data) :
    indir_copy_op E st data
        = copy_loop E (st.wires (u32 (data.dest + st.base))).value
            (u32 (data.source + st.base)) data.width 0 st
      ∧ copy_indir_op E st data
        = copy_loop E (u32 (data.dest + st.base))
            (st.wires (u32 (data.source + st.base))).value data.width 0 st
      ∧ (∀ d', u32 (st.wires (u32 (data.dest + st.base))).value = u32 (d' + st.base) →
          indir_copy_op E st data = copy_op E st ⟨d', data.source, data.width⟩) := by
  refine ⟨indir_copy_loop_eq E _ _ _ _ _, copy_indir_loop_eq E _ _ _ _ _, ?_⟩
  intro d' h
  unfold indir_copy_op copy_op
  rw [indir_copy_loop_eq]
  apply copy_loop_dest_u32
  rw [h]
  show u32 (d' + st.base) = u32 (u32 (d' + st.base))
  unfold u32
  omega

/-- Witness for C15: wire 7 of the sample state holds 5, so the indirect copy through
wire 7 is the copy to destination 5. -/
theorem copy_modes_agree_witness :
    indir_copy_op demoEnv demoState ⟨7, 8, 2⟩ = copy_op demoEnv demoState ⟨5, 8, 2⟩ :=
  (copy_modes_agree demoEnv demoState ⟨7, 8, 2⟩).2.2 5 (by decide)

/-! ## C20: copy between overlapping ranges -/

/-- One more iteration of the copy loop is one application of `copy_iter`. -/
theorem copy_loop_succ (E : PCFEnv) (D S n i : Nat) (st : PCFState) :
    copy_loop E D S (n + 1) i st
      = copy_loop E D S n (i + 1) (copy_iter E (u32 (D + i)) (u32 (S + i)) st) := rfl

/-- An iteration of the copy loop leaves every wire but its destination. -/
theorem copy_iter_wires_other (E : PCFEnv) (d s x : Nat) (st : PCFState) (hx : x ≠ d) :
    (copy_iter E d s st).wires x = st.wires x := by
  unfold copy_iter
  by_cases hk : (st.wires s).keydata = 0
  · simp [hk, hx]
  · simp [hk, hx]

/-- An iteration of the copy loop gives its destination the value of its source. -/
theorem copy_iter_value (E : PCFEnv) (d s : Nat) (st : PCFState) :
    ((copy_iter E d s st).wires d).value = (st.wires s).value := by
  unfold copy_iter
  by_cases hsd : s = d
  · subst hsd
    by_cases hk : (st.wires s).keydata = 0
    · simp [hk]
    · simp [hk]
  · by_cases hk : (st.wires s).keydata = 0
    · simp [hk, hsd]
    · simp [hk, hsd]

/-- An iteration of the copy loop gives its destination the flag of its source. -/
theorem copy_iter_flags (E : PCFEnv) (d s : Nat) (st : PCFState) :
    ((copy_iter E d s st).wires d).flags = (st.wires s).flags := by
  unfold copy_iter
  by_cases hsd : s = d
  · subst hsd
    by_cases hk : (st.wires s).keydata = 0
    · simp [hk]
    · simp [hk]
  · by_cases hk : (st.wires s).keydata = 0
    · simp [hk, hsd]
    · simp [hk, hsd]

/-- The copy loop leaves every wire that is not a destination of one of its
remaining iterations. -/
theorem copy_loop_frame (E : PCFEnv) (D S : Nat) :
    ∀ (n i : Nat) (st : PCFState) (x : Nat),
      (∀ a, i ≤ a → a < i + n → x ≠ u32 (D + a)) →
      (copy_loop E D S n i st).wires x = st.wires x := by
  intro n
  induction n with
  | zero => intro i st x _; rfl
  | succ n ih =>
    intro i st x hx
    rw [copy_loop_succ, ih (i + 1) _ x (fun a h1 h2 => hx a (by omega) (by omega)),
      copy_iter_wires_other E _ _ x st (hx i (le_refl _) (by omega))]

/-- Successor and remainder: either the remainder wraps to 0 or it grows by one. -/
theorem succ_mod_cases (m d : Nat) (hd : 0 < d) :
    (m % d + 1 = d ∧ (m + 1) % d = 0) ∨ (m % d + 1 < d ∧ (m + 1) % d = m % d + 1) := by
  have hlt := Nat.mod_lt m hd
  have hdm := Nat.div_add_mod m d
  by_cases h : m % d + 1 = d
  · left
    refine ⟨h, ?_⟩
    have : m + 1 = d * (m / d + 1) := by rw [Nat.mul_add, Nat.mul_one]; omega
    rw [this, Nat.mul_mod_right]
  · right
    refine ⟨by omega, ?_⟩
    have : m + 1 = d * (m / d) + (m % d + 1) := by omega
    rw [this, Nat.mul_add_mod, Nat.mod_eq_of_lt (by omega)]

/-- Copy loop whose destination range starts `dd > 0` wires above its source range,
without address wrap-around: destination `a` ends with value and flag of the wire
`(a - i) mod dd` places after the current source start. -/
theorem copy_loop_above (E : PCFEnv) (S dd : Nat) (hdd : 0 < dd) :
    ∀ (n i : Nat) (st : PCFState), S + dd + i + n ≤ 4294967296 →
      ∀ a, i ≤ a → a < i + n →
        ((copy_loop E (S + dd) S n i st).wires (S + dd + a)).value
            = (st.wires (S + i + (a - i) % dd)).value
          ∧ ((copy_loop E (S + dd) S n i st).wires (S + dd + a)).flags
            = (st.wires (S + i + (a - i) % dd)).flags := by
  intro n
  induction n with
  | zero => intro i st _ a h1 h2; omega
  | succ n ih =>
    intro i st hnw a h1 h2
    have hd : u32 (S + dd + i) = S + dd + i := by unfold u32; omega
    have hs : u32 (S + i) = S + i := by unfold u32; omega
    rw [copy_loop_succ, hd, hs]
    by_cases hai : a = i
    · subst hai
      rw [copy_loop_frame E _ _ n (a + 1) _ (S + dd + a) (by
        intro b hb1 hb2; unfold u32; omega)]
      rw [Nat.sub_self, Nat.zero_mod, Nat.add_zero]
      exact ⟨copy_iter_value E _ _ st, copy_iter_flags E _ _ st⟩
    · have hih := ih (i + 1) (copy_iter E (S + dd + i) (S + i) st) (by omega) a (by omega)
        (by omega)
      have hsub : a - i = (a - (i + 1)) + 1 := by omega
      rw [hsub]
      rcases succ_mod_cases (a - (i + 1)) dd hdd with ⟨hw, hm⟩ | ⟨hw, hm⟩
      · rw [hm, Nat.add_zero]
        have haddr : S + (i + 1) + (a - (i + 1)) % dd = S + dd + i := by omega
        rw [haddr, copy_iter_value, copy_iter_flags] at hih
        exact hih
      · rw [hm]
        have haddr : S + (i + 1) + (a - (i + 1)) % dd = S + i + ((a - (i + 1)) % dd + 1) := by
          omega
        rw [haddr, copy_iter_wires_other E _ _ _ st (by omega)] at hih
        exact hih

/-- Copy loop whose destination range starts below its source range, without
address wrap-around: destination `a` ends with value and flag of source `a`. -/
theorem copy_loop_below (E : PCFEnv) (D S : Nat) (hlt : D < S) :
    ∀ (n i : Nat) (st : PCFState), S + i + n ≤ 4294967296 →
      ∀ a, i ≤ a → a < i + n →
        ((copy_loop E D S n i st).wires (D + a)).value = (st.wires (S + a)).value
          ∧ ((copy_loop E D S n i st).wires (D + a)).flags = (st.wires (S + a)).flags := by
  intro n
  induction n with
  | zero => intro i st _ a h1 h2; omega
  | succ n ih =>
    intro i st hnw a h1 h2
    have hd : u32 (D + i) = D + i := by unfold u32; omega
    have hs : u32 (S + i) = S + i := by unfold u32; omega
    rw [copy_loop_succ, hd, hs]
    by_cases hai : a = i
    · subst hai
      rw [copy_loop_frame E _ _ n (a + 1) _ (D + a) (by
        intro b hb1 hb2; unfold u32; omega)]
      exact ⟨copy_iter_value E _ _ st, copy_iter_flags E _ _ st⟩
    · have hih := ih (i + 1) (copy_iter E (D + i) (S + i) st) (by omega) a (by omega)
        (by omega)
      rw [copy_iter_wires_other E _ _ _ st (by omega)] at hih
      exact hih

/-- Claim C20: let `D` and `S` be the absolute destination and source starts of a
`copy_op` of width `w`, the ranges not wrapping around the address space.  When
`D = S + dd` with `0 < dd < w`, destination wire `i < w` ends with the value and
flag that source wire `i mod dd` had before the copy (the first `dd` source wires
are replicated).  When `D < S`, destination wire `i` ends with the value and flag
that source wire `i` had before the copy. -/
theorem copy_op_overlap (E : PCFEnv) (st : PCFState) (data : copy_op_data) :
    (∀ dd, 0 < dd → dd < data.width →
        u32 (data.dest + st.base) = u32 (data.source + st.base) + dd →
        u32 (data.dest + st.base) + data.width ≤ 4294967296 →
        ∀ i, i < data.width →
          ((copy_op E st data).wires (u32 (data.dest + st.base) + i)).value
              = (st.wires (u32 (data.source + st.base) + i % dd)).value
            ∧ ((copy_op E st data).wires (u32 (data.dest + st.base) + i)).flags
              = (st.wires (u32 (data.source + st.base) + i % dd)).flags)
    ∧ (u32 (data.dest + st.base) < u32 (data.source + st.base) →
        u32 (data.source + st.base) + data.width ≤ 4294967296 →
        ∀ i, i < data.width →
          ((copy_op E st data).wires (u32 (data.dest + st.base) + i)).value
              = (st.wires (u32 (data.source + st.base) + i)).value
            ∧ ((copy_op E st data).wires (u32 (data.dest + st.base) + i)).flags
              = (st.wires (u32 (data.source + st.base) + i)).flags) := by
  constructor
  · intro dd h0 _ hD hnw i hi
    unfold copy_op
    rw [hD]
    have h := copy_loop_above E (u32 (data.source + st.base)) dd h0 data.width 0 st
      (by omega) i (Nat.zero_le _) (by omega)
    simpa using h
  · intro hlt hnw i hi
    exact copy_loop_below E _ _ hlt data.width 0 st (by omega) i (Nat.zero_le _) (by omega)

/-- Witness for C20: the copy of the wires 7, 8, 9 of the sample state to the wires
8, 9, 10 replicates wire 7; destination wire 1 does not end with the value that
source wire 1 had. -/
theorem copy_op_overlap_witness :
    (∀ i, i < 3 →
        ((copy_op demoEnv demoState ⟨8, 7, 3⟩).wires (u32 (8 + demoState.base) + i)).value
            = (demoState.wires (u32 (7 + demoState.base) + i % 1)).value
          ∧ ((copy_op demoEnv demoState ⟨8, 7, 3⟩).wires (u32 (8 + demoState.base) + i)).flags
            = (demoState.wires (u32 (7 + demoState.base) + i % 1)).flags)
      ∧ ((copy_op demoEnv demoState ⟨8, 7, 3⟩).wires 9).value ≠ (demoState.wires 8).value :=
  ⟨(copy_op_overlap demoEnv demoState ⟨8, 7, 3⟩).1 1 (by decide) (by decide) (by decide)
    (by decide), by decide⟩

/-! ## C16: Unknown wires hold keys -/

/-- Key stored in its destination by an iteration of the copy loop. -/
theorem copy_iter_keydata (E : PCFEnv) (d s : Nat) (st : PCFState) :
    ((copy_iter E d s st).wires d).keydata
      = if (st.wires s).keydata ≠ 0
          then E.copy_key (delete_if_set st d).log (st.wires s).keydata else 0 := by
  unfold copy_iter
  by_cases hk : (st.wires s).keydata = 0
  · simp [hk]
  · simp [hk, copy_key_result]

/-- An iteration of the copy loop keeps the invariant, when clones are keys. -/
theorem copy_iter_keyed (E : PCFEnv) (d s : Nat) (st : PCFState)
    (hc : ∀ h k, E.copy_key h k ≠ 0) (hinv : wires_keyed st.wires) :
    wires_keyed (copy_iter E d s st).wires := by
  intro x hx
  by_cases hxd : x = d
  · subst hxd
    rw [copy_iter_flags] at hx
    rw [copy_iter_keydata, if_pos (hinv s hx)]
    exact hc _ _
  · rw [copy_iter_wires_other E d s x st hxd] at hx ⊢
    exact hinv x hx

/-- The copy loop keeps the invariant, when clones are keys. -/
theorem copy_loop_keyed (E : PCFEnv) (D S : Nat) (hc : ∀ h k, E.copy_key h k ≠ 0) :
    ∀ (n i : Nat) (st : PCFState), wires_keyed st.wires →
      wires_keyed (copy_loop E D S n i st).wires := by
  intro n
  induction n with
  | zero => intro i st h; exact h
  | succ n ih =>
    intro i st h
    rw [copy_loop_succ]
    exact ih _ _ (copy_iter_keyed E _ _ st hc h)

/-- The loop of `bits_op` keeps the invariant: its destinations become Known. -/
theorem bits_loop_keyed (E : PCFEnv) :
    ∀ (ds : List Nat) (cval : Nat) (st : PCFState), wires_keyed st.wires →
      wires_keyed (bits_loop E ds cval st).wires := by
  intro ds
  induction ds with
  | nil => intro cval st h; exact h
  | cons d ds ih =>
    intro cval st h
    simp only [bits_loop]
    apply ih
    intro x hx
    by_cases hxa : x = u32 (d + st.base)
    · simp [hxa] at hx
    · simp only [set_keydata_wires, after_copy_key_wires, delete_if_set_wires, set_flags_wires,
        set_value_wires, if_neg hxa] at hx ⊢
      exact h x hx

/-- The first part of an input role changes no wire. -/
theorem input_arg_wires (st st1 : PCFState) (nb : Nat) (chk : Bool)
    (h : input_arg st nb chk = Except.ok st1) : st1.wires = st.wires := by
  unfold input_arg at h
  split at h
  · split at h
    · cases h
    · cases h; rfl
  · cases h; rfl

/-- A round of an input role keeps the invariant, when clones are keys. -/
theorem input_round_keyed (E : PCFEnv) (st : PCFState) (nb : Nat) (tag : Tag)
    (hc : ∀ h k, E.copy_key h k ≠ 0) (hinv : wires_keyed st.wires) :
    wires_keyed (input_round E st nb tag).wires := by
  intro x hx
  unfold input_round at hx ⊢
  by_cases hlt : st.inp_i < 32
  · rw [if_pos hlt] at hx ⊢
    by_cases hxa : x = (input_gate st nb st.inp_i tag).reswire
    · simp [hxa, copy_key_result]
      exact hc _ _
    · simp only [set_keydata_wires, set_flags_wires, after_copy_key_wires,
        after_callback_wires, delete_if_set_wires, if_neg hxa] at hx ⊢
      exact hinv x hx
  · rw [if_neg hlt] at hx ⊢
    exact hinv x hx

/-- An output role changes no wire. -/
theorem output_round_wires (E : PCFEnv) (st : PCFState) (nb : Nat) (tag : Tag) :
    (output_round E st nb tag).wires = st.wires := by
  unfold output_round
  split <;> rfl

/-- Operation `call_op`, when it completes, keeps the invariant. -/
theorem call_op_keyed (E : PCFEnv) (st st' : PCFState) (d : call_op_data)
    (hc : ∀ h k, E.copy_key h k ≠ 0) (hinv : wires_keyed st.wires)
    (hok : call_op E st d = Except.ok st') : wires_keyed st'.wires := by
  unfold call_op at hok
  split at hok
  · split at hok
    · cases hok
    · rename_i st1 h1
      cases hok
      exact input_round_keyed E st1 _ _ hc (by rw [input_arg_wires st st1 _ _ h1]; exact hinv)
  · split at hok
    · split at hok
      · cases hok
      · rename_i st1 h1
        cases hok
        exact input_round_keyed E st1 _ _ hc (by rw [input_arg_wires st st1 _ _ h1]; exact hinv)
    · split at hok
      · cases hok
        rw [output_round_wires]; exact hinv
      · split at hok
        · cases hok
          rw [output_round_wires]; exact hinv
        · unfold call_general at hok
          split at hok
          · cases hok
          · cases hok
            exact hinv

/-- Operation `gate_op`, when it completes, keeps the invariant. -/
theorem gate_op_keyed (E : PCFEnv) (st st' : PCFState) (data : PCFGate)
    (hc : ∀ h k, E.copy_key h k ≠ 0) (hinv : wires_keyed st.wires)
    (hok : gate_op E st data = Except.ok st') : wires_keyed st'.wires := by
  revert hok
  unfold gate_op
  dsimp only
  split_ifs <;> intro hok <;> cases hok
  · intro x hx
    by_cases hxa : x = u32 (data.reswire + st.base)
    · simp [hxa, gate_delegate, gate_callback_state, copy_key_result]
      exact hc _ _
    · simp only [gate_delegate, gate_callback_state, set_keydata_wires, set_flags_wires,
        after_copy_key_wires, after_callback_wires, delete_if_set_wires, if_neg hxa] at hx ⊢
      exact hinv x hx
  · intro x hx
    by_cases hxa : x = u32 (data.reswire + st.base)
    · simp [hxa] at hx
    · simp only [set_keydata_wires, set_flags_wires, set_value_wires, after_copy_key_wires,
        delete_if_set_wires, if_neg hxa] at hx ⊢
      exact hinv x hx

/-- Claim C16: if every wire flagged Unknown holds a key before an operation, the
key clone function and the callback always return a key, and the operation
completes, then every wire flagged Unknown holds a key afterwards; this for each of
the operations nop, initbase, mkptr, const, bits, gate, call (all five branches),
the three copies and ret. -/
theorem unknown_wires_keyed (E : PCFEnv) (op : PCFOP) (st st' : PCFState)
    (hinv : wires_keyed st.wires)
    (hc : ∀ h k, E.copy_key h k ≠ 0) (_hcb : ∀ s g, E.callback s g ≠ 0)
    (hok : op.exec E st = Except.ok st') :
    wires_keyed st'.wires := by
  cases op with
  | nop => cases hok; exact hinv
  | initbase d =>
    simp only [PCFOP.exec, initbase_op] at hok
    split at hok
    · cases hok
    · cases hok; exact hinv
  | mkptr idx =>
    simp only [PCFOP.exec, mkptr_op] at hok
    split at hok
    · cases hok
    · cases hok
      intro x hx
      by_cases hxa : x = u32 (idx + st.base)
      · simp only [set_value_wires, if_pos hxa] at hx ⊢
        exact hinv x hx
      · simp only [set_value_wires, if_neg hxa] at hx ⊢
        exact hinv x hx
  | const d =>
    cases hok
    intro x hx
    by_cases hxa : x = u32 (d.dest + st.base)
    · simp [const_op, hxa] at hx
    · rw [const_op_wires_other st d x hxa] at hx ⊢
      exact hinv x hx
  | bits d =>
    simp only [PCFOP.exec, bits_op] at hok
    split at hok
    · cases hok
    · cases hok
      exact bits_loop_keyed E _ _ st hinv
  | call d => exact call_op_keyed E st st' d hc hinv hok
  | gate d => exact gate_op_keyed E st st' d hc hinv hok
  | copy d =>
    cases hok
    exact copy_loop_keyed E _ _ hc _ _ st hinv
  | indir_copy d =>
    cases hok
    unfold indir_copy_op
    rw [indir_copy_loop_eq]
    exact copy_loop_keyed E _ _ hc _ _ st hinv
  | copy_indir d =>
    cases hok
    unfold copy_indir_op
    rw [copy_indir_loop_eq]
    exact copy_loop_keyed E _ _ hc _ _ st hinv
  | ret =>
    cases hok
    simp only [ret_op]
    split <;> exact hinv

/-- Witness for C16: the copy of the wires 7, 8, 9 of the sample state (two of them
Unknown with keys) to the wires 20, 21, 22. -/
theorem unknown_wires_keyed_witness :
    wires_keyed (copy_op demoEnv demoState ⟨20, 7, 3⟩).wires :=
  unknown_wires_keyed demoEnv (PCFOP.copy ⟨20, 7, 3⟩) demoState _
    (by
      intro x hx
      simp only [demoState] at hx ⊢
      split_ifs at hx ⊢ <;> simp_all)
    (by intro h k; simp [demoEnv])
    (by intro s g; simp [demoEnv])
    rfl

/-! ## C17: key handles -/

/-- Live handles are never null. -/
theorem owned_filter_zero (H : List Nat) (keys : Nat → Nat) (h : handles_owned H keys) :
    H.filter (fun x => x ≠ 0) = H := by
  apply List.filter_eq_self.mpr
  intro x hx
  simpa using ((h.2.1 x).mp hx).1

/-- Ending the handle of wire `a` and storing the fresh handle `r` there keeps the
ownership invariant. -/
theorem owned_assign (H : List Nat) (keys keys' : Nat → Nat) (a r : Nat)
    (h : handles_owned H keys) (hr0 : r ≠ 0)
    (hr : r ∉ H.filter (fun x => x ≠ keys a))
    (ha : keys' a = r) (ho : ∀ x, x ≠ a → keys' x = keys x) :
    handles_owned (r :: H.filter (fun x => x ≠ keys a)) keys' := by
  obtain ⟨hnd, hmem, hinj⟩ := h
  refine ⟨List.nodup_cons.mpr ⟨hr, hnd.filter _⟩, ?_, ?_⟩
  · intro x
    constructor
    · intro hx
      rcases List.mem_cons.mp hx with rfl | hx
      · exact ⟨hr0, a, ha⟩
      · rw [List.mem_filter] at hx
        obtain ⟨hxH, hxk⟩ := hx
        have hxk' : x ≠ keys a := by simpa using hxk
        obtain ⟨hx0, b, hb⟩ := (hmem x).mp hxH
        refine ⟨hx0, b, ?_⟩
        rw [ho b (by rintro rfl; exact hxk' hb.symm)]
        exact hb
    · rintro ⟨hx0, b, hb⟩
      by_cases hba : b = a
      · subst hba
        rw [ha] at hb
        subst hb
        exact List.mem_cons_self _ _
      · rw [ho b hba] at hb
        apply List.mem_cons_of_mem
        rw [List.mem_filter]
        refine ⟨(hmem x).mpr ⟨hx0, b, hb⟩, ?_⟩
        have : x ≠ keys a := by
          intro hxa
          exact hba (hinj b a (by rw [hb, hxa]) (by rw [hb]; exact hx0))
        simpa using this
  · intro x y hxy hx0
    by_cases hxa : x = a
    · by_cases hya : y = a
      · rw [hxa, hya]
      · exfalso
        subst hxa
        rw [ha, ho y hya] at hxy
        apply hr
        rw [List.mem_filter]
        refine ⟨(hmem r).mpr ⟨hr0, y, hxy.symm⟩, ?_⟩
        have : r ≠ keys x := by
          intro hrk
          exact hya (hinj y x (by rw [← hxy, hrk]) (by rw [← hxy]; exact hr0))
        simpa using this
    · by_cases hya : y = a
      · exfalso
        subst hya
        rw [ha, ho x hxa] at hxy
        apply hr
        rw [List.mem_filter]
        refine ⟨(hmem r).mpr ⟨hr0, x, hxy⟩, ?_⟩
        have : r ≠ keys y := by
          intro hrk
          exact hxa (hinj x y (by rw [hxy, hrk]) (by rw [hxy]; exact hr0))
        simpa using this
      · rw [ho x hxa, ho y hya] at hxy
        rw [ho x hxa] at hx0
        exact hinj x y hxy hx0

/-- Ending the handle of wire `a` and clearing its key keeps the ownership
invariant. -/
theorem owned_clear (H : List Nat) (keys keys' : Nat → Nat) (a : Nat)
    (h : handles_owned H keys)
    (ha : keys' a = 0) (ho : ∀ x, x ≠ a → keys' x = keys x) :
    handles_owned (H.filter (fun x => x ≠ keys a)) keys' := by
  obtain ⟨hnd, hmem, hinj⟩ := h
  refine ⟨hnd.filter _, ?_, ?_⟩
  · intro x
    constructor
    · intro hx
      rw [List.mem_filter] at hx
      obtain ⟨hxH, hxk⟩ := hx
      have hxk' : x ≠ keys a := by simpa using hxk
      obtain ⟨hx0, b, hb⟩ := (hmem x).mp hxH
      refine ⟨hx0, b, ?_⟩
      rw [ho b (by rintro rfl; exact hxk' hb.symm)]
      exact hb
    · rintro ⟨hx0, b, hb⟩
      by_cases hba : b = a
      · subst hba
        rw [ha] at hb
        exact absurd hb.symm hx0
      · rw [ho b hba] at hb
        rw [List.mem_filter]
        refine ⟨(hmem x).mpr ⟨hx0, b, hb⟩, ?_⟩
        have : x ≠ keys a := by
          intro hxa
          exact hba (hinj b a (by rw [hb, hxa]) (by rw [hb]; exact hx0))
        simpa using this
  · intro x y hxy hx0
    by_cases hxa : x = a
    · subst hxa
      exact absurd ha hx0
    · by_cases hya : y = a
      · subst hya
        rw [ha] at hxy
        exact absurd hxy hx0
      · rw [ho x hxa, ho y hya] at hxy
        rw [ho x hxa] at hx0
        exact hinj x y hxy hx0

/-- Live handles after the statement that deletes the key of wire `a` if it is
set. -/
theorem live_delete_if_set (H0 : List Nat) (st : PCFState) (a : Nat)
    (h : handles_owned (live_handles H0 st.log) (key_of st)) :
    live_handles H0 (delete_if_set st a).log
      = (live_handles H0 st.log).filter (fun x => x ≠ key_of st a) := by
  unfold delete_if_set key_of
  dsimp only
  by_cases hk : (st.wires a).keydata = 0
  · rw [if_neg (by simpa using hk), hk, owned_filter_zero _ _ h]
  · rw [if_pos hk]
    rfl

/-- State form of `owned_assign`: the key of wire `a` is deleted if set, and after
calls that create or end no handle (log `L`) a clone is stored in wire `a`. -/
theorem state_assign (E : PCFEnv) (H0 : List Nat) (st st' : PCFState) (a c : Nat)
    (L : List Event) (hfresh : fresh_copy E H0) (hown : keys_owned H0 st)
    (hL : live_handles H0 L = live_handles H0 (delete_if_set st a).log)
    (hlog : st'.log = Event.copied c (E.copy_key L c) :: L)
    (hkey : key_of st' a = E.copy_key L c)
    (ho : ∀ x, x ≠ a → key_of st' x = key_of st x) :
    keys_owned H0 st' := by
  unfold keys_owned
  rw [hlog]
  show handles_owned (E.copy_key L c :: live_handles H0 L) (key_of st')
  have hf := hfresh L c
  rw [hL, live_delete_if_set H0 st a hown] at hf ⊢
  exact owned_assign _ _ _ a _ hown hf.1 hf.2 hkey ho

/-- State form of `owned_clear`: the key of wire `a` is deleted if set and
cleared. -/
theorem state_clear (H0 : List Nat) (st st' : PCFState) (a : Nat)
    (hown : keys_owned H0 st)
    (hlog : st'.log = (delete_if_set st a).log)
    (hkey : key_of st' a = 0)
    (ho : ∀ x, x ≠ a → key_of st' x = key_of st x) :
    keys_owned H0 st' := by
  unfold keys_owned
  rw [hlog, live_delete_if_set H0 st a hown]
  exact owned_clear _ _ _ a hown hkey ho

/-- A step that creates or ends no handle and changes no key keeps the ownership
invariant. -/
theorem state_same (H0 : List Nat) (st st' : PCFState) (hown : keys_owned H0 st)
    (hlog : live_handles H0 st'.log = live_handles H0 st.log)
    (hkey : key_of st' = key_of st) : keys_owned H0 st' := by
  unfold keys_owned
  rw [hlog, hkey]
  exact hown

/-- Log after an iteration of the copy loop. -/
theorem copy_iter_log (E : PCFEnv) (d s : Nat) (st : PCFState) :
    (copy_iter E d s st).log
      = if (st.wires s).keydata ≠ 0
          then Event.copied (st.wires s).keydata
                (E.copy_key (delete_if_set st d).log (st.wires s).keydata)
                :: (delete_if_set st d).log
          else (delete_if_set st d).log := by
  unfold copy_iter
  by_cases hk : (st.wires s).keydata = 0
  · simp [hk]
  · simp [hk, after_copy_key]

/-- An iteration of the copy loop keeps the ownership invariant. -/
theorem copy_iter_owned (E : PCFEnv) (H0 : List Nat) (d s : Nat) (st : PCFState)
    (hfresh : fresh_copy E H0) (hown : keys_owned H0 st) :
    keys_owned H0 (copy_iter E d s st) := by
  have ho : ∀ x, x ≠ d → key_of (copy_iter E d s st) x = key_of st x := by
    intro x hx
    unfold key_of
    rw [copy_iter_wires_other E d s x st hx]
  by_cases hk : (st.wires s).keydata = 0
  · refine state_clear H0 st _ d hown ?_ ?_ ho
    · rw [copy_iter_log, if_neg (by simpa using hk)]
    · unfold key_of
      rw [copy_iter_keydata, if_neg (by simpa using hk)]
  · refine state_assign E H0 st _ d (st.wires s).keydata (delete_if_set st d).log hfresh hown
      rfl ?_ ?_ ho
    · rw [copy_iter_log, if_pos hk]
    · unfold key_of
      rw [copy_iter_keydata, if_pos hk]

/-- The copy loop keeps the ownership invariant. -/
theorem copy_loop_owned (E : PCFEnv) (H0 : List Nat) (D S : Nat) (hfresh : fresh_copy E H0) :
    ∀ (n i : Nat) (st : PCFState), keys_owned H0 st →
      keys_owned H0 (copy_loop E D S n i st) := by
  intro n
  induction n with
  | zero => intro i st h; exact h
  | succ n ih =>
    intro i st h
    rw [copy_loop_succ]
    exact ih _ _ (copy_iter_owned E H0 _ _ st hfresh h)

/-- The loop of `bits_op` keeps the ownership invariant. -/
theorem bits_loop_owned (E : PCFEnv) (H0 : List Nat) (hfresh : fresh_copy E H0) :
    ∀ (ds : List Nat) (cval : Nat) (st : PCFState), keys_owned H0 st →
      keys_owned H0 (bits_loop E ds cval st) := by
  intro ds
  induction ds with
  | nil => intro cval st h; exact h
  | cons d ds ih =>
    intro cval st h
    simp only [bits_loop]
    apply ih
    refine state_assign E H0 st _ (u32 (d + st.base)) (E.constant_keys (cval &&& 1))
      (delete_if_set st (u32 (d + st.base))).log hfresh h rfl ?_ ?_ ?_
    · simp [after_copy_key, delete_if_set]
    · simp [key_of, copy_key_result, delete_if_set]
    · intro x hx
      simp [key_of, hx]

/-- Operation `const_op` keeps the ownership invariant. -/
theorem const_op_owned (H0 : List Nat) (st : PCFState) (data : const_op_data)
    (hown : keys_owned H0 st) : keys_owned H0 (const_op st data) := by
  refine state_clear H0 st _ (u32 (data.dest + st.base)) hown ?_ ?_ ?_
  · simp [const_op, delete_if_set]
  · simp [key_of, const_op]
  · intro x hx
    simp [key_of, const_op, hx]

/-- A round of an input role keeps the ownership invariant. -/
theorem input_round_owned (E : PCFEnv) (H0 : List Nat) (st : PCFState) (nb : Nat) (tag : Tag)
    (hfresh : fresh_copy E H0) (hown : keys_owned H0 st) :
    keys_owned H0 (input_round E st nb tag) := by
  unfold input_round
  by_cases hlt : st.inp_i < 32
  · rw [if_pos hlt]
    refine state_assign E H0 st _ (input_gate st nb st.inp_i tag).reswire
      (E.callback
        (delete_if_set
          { st with inp_i := u32 (st.inp_i + 1), input_g := input_gate st nb st.inp_i tag }
          (input_gate st nb st.inp_i tag).reswire)
        (input_gate st nb st.inp_i tag))
      (Event.called (input_gate st nb st.inp_i tag)
          (E.callback
            (delete_if_set
              { st with inp_i := u32 (st.inp_i + 1), input_g := input_gate st nb st.inp_i tag }
              (input_gate st nb st.inp_i tag).reswire)
            (input_gate st nb st.inp_i tag))
        :: (delete_if_set st (input_gate st nb st.inp_i tag).reswire).log) hfresh hown
      rfl ?_ ?_ ?_
    · simp [after_copy_key, after_callback, delete_if_set]
    · simp [key_of, copy_key_result, after_callback, delete_if_set]
    · intro x hx
      simp [key_of, hx]
  · rw [if_neg hlt]
    exact state_same H0 st _ hown rfl rfl

/-- Storing a clone in a wire that holds no key keeps the ownership invariant. -/
theorem state_assign_empty (E : PCFEnv) (H0 : List Nat) (st st' : PCFState) (a c : Nat)
    (L : List Event) (hfresh : fresh_copy E H0) (hown : keys_owned H0 st)
    (hk0 : key_of st a = 0)
    (hL : live_handles H0 L = live_handles H0 st.log)
    (hlog : st'.log = Event.copied c (E.copy_key L c) :: L)
    (hkey : key_of st' a = E.copy_key L c)
    (ho : ∀ x, x ≠ a → key_of st' x = key_of st x) :
    keys_owned H0 st' := by
  refine state_assign E H0 st st' a c L hfresh hown ?_ hlog hkey ho
  rw [hL]
  unfold key_of at hk0
  simp [delete_if_set, hk0]

/-- Releasing and clearing the key of a wire keeps the ownership invariant. -/
theorem clear_key_owned (H0 : List Nat) (st : PCFState) (a : Nat) (hown : keys_owned H0 st) :
    keys_owned H0 ((delete_if_set st a).set_keydata a 0) := by
  refine state_clear H0 st _ a hown rfl ?_ ?_
  · simp [key_of]
  · intro x hx
    simp [key_of, hx]

/-- The delegated branch of `gate_op`, run on a state whose result wire holds no
key, keeps the ownership invariant. -/
theorem gate_delegate_owned (E : PCFEnv) (H0 : List Nat) (s1 : PCFState) (g : PCFGate)
    (hfresh : fresh_copy E H0) (hown : keys_owned H0 s1) (hk0 : key_of s1 g.reswire = 0) :
    keys_owned H0 (gate_delegate E s1 g) := by
  refine state_assign_empty E H0 s1 _ g.reswire (E.callback (gate_callback_state s1 g) g)
    (Event.called g (E.callback (gate_callback_state s1 g) g) :: s1.log) hfresh hown hk0
    rfl ?_ ?_ ?_
  · simp [gate_delegate, gate_callback_state, after_copy_key, after_callback, copy_key_result]
  · simp [key_of, gate_delegate, gate_callback_state, after_callback, copy_key_result]
  · intro x hx
    simp [key_of, gate_delegate, gate_callback_state, hx]

/-- The end of the direct branch of `gate_op`, run on a state whose result wire
holds no key, keeps the ownership invariant. -/
theorem gate_direct_owned (E : PCFEnv) (H0 : List Nat) (s1 : PCFState) (a c v : Nat)
    (f : WireFlag) (hfresh : fresh_copy E H0) (hown : keys_owned H0 s1)
    (hk0 : key_of s1 a = 0) :
    keys_owned H0
      ((((after_copy_key E s1 c).set_keydata a (copy_key_result E s1 c)).set_value a v).set_flags
        a f) := by
  refine state_assign_empty E H0 s1 _ a c s1.log hfresh hown hk0 rfl ?_ ?_ ?_
  · simp [after_copy_key]
  · simp [key_of, copy_key_result]
  · intro x hx
    simp [key_of, hx]

/-- Operation `gate_op`, when it completes, keeps the ownership invariant. -/
theorem gate_op_owned (E : PCFEnv) (H0 : List Nat) (st st' : PCFState) (data : PCFGate)
    (hfresh : fresh_copy E H0) (hown : keys_owned H0 st)
    (hok : gate_op E st data = Except.ok st') : keys_owned H0 st' := by
  have h1 := clear_key_owned H0 st (u32 (data.reswire + st.base)) hown
  have hk0 : key_of ((delete_if_set st (u32 (data.reswire + st.base))).set_keydata
      (u32 (data.reswire + st.base)) 0) (u32 (data.reswire + st.base)) = 0 := by
    simp [key_of]
  revert hok
  unfold gate_op
  dsimp only
  split_ifs <;> intro hok <;> cases hok
  · exact gate_delegate_owned E H0 _ _ hfresh h1 hk0
  · exact gate_direct_owned E H0
      ((delete_if_set st (u32 (data.reswire + st.base))).set_keydata
        (u32 (data.reswire + st.base)) 0)
      (u32 (data.reswire + st.base)) _ _ WireFlag.KNOWN_WIRE hfresh h1 hk0

/-- The first part of an input role makes no external call. -/
theorem input_arg_log (st st1 : PCFState) (nb : Nat) (chk : Bool)
    (h : input_arg st nb chk = Except.ok st1) : st1.log = st.log := by
  unfold input_arg at h
  split at h
  · split at h
    · cases h
    · cases h; rfl
  · cases h; rfl

/-- An output role keeps the ownership invariant. -/
theorem output_round_owned (E : PCFEnv) (H0 : List Nat) (st : PCFState) (nb : Nat) (tag : Tag)
    (hown : keys_owned H0 st) : keys_owned H0 (output_round E st nb tag) := by
  unfold output_round
  split
  · exact state_same H0 st _ hown (by simp [after_callback, live_handles])
      (by funext x; simp [key_of, after_callback])
  · exact state_same H0 st _ hown rfl rfl

/-- Operation `call_op`, when it completes, keeps the ownership invariant. -/
theorem call_op_owned (E : PCFEnv) (H0 : List Nat) (st st' : PCFState) (d : call_op_data)
    (hfresh : fresh_copy E H0) (hown : keys_owned H0 st)
    (hok : call_op E st d = Except.ok st') : keys_owned H0 st' := by
  have harg : ∀ st1 chk, input_arg st d.newbase chk = Except.ok st1 → keys_owned H0 st1 := by
    intro st1 chk h1
    refine state_same H0 st st1 hown (by rw [input_arg_log st st1 _ _ h1]) ?_
    unfold key_of
    rw [input_arg_wires st st1 _ _ h1]
  unfold call_op at hok
  split at hok
  · split at hok
    · cases hok
    · rename_i st1 h1
      cases hok
      exact input_round_owned E H0 st1 _ _ hfresh (harg st1 _ h1)
  · split at hok
    · split at hok
      · cases hok
      · rename_i st1 h1
        cases hok
        exact input_round_owned E H0 st1 _ _ hfresh (harg st1 _ h1)
    · split at hok
      · cases hok
        exact output_round_owned E H0 st _ _ hown
      · split at hok
        · cases hok
          exact output_round_owned E H0 st _ _ hown
        · unfold call_general at hok
          split at hok
          · cases hok
          · cases hok
            exact hown

/-- Every operation that completes keeps the ownership invariant. -/
theorem exec_owned (E : PCFEnv) (H0 : List Nat) (hfresh : fresh_copy E H0) (op : PCFOP)
    (st st' : PCFState) (hown : keys_owned H0 st) (hok : op.exec E st = Except.ok st') :
    keys_owned H0 st' := by
  cases op with
  | nop => cases hok; exact hown
  | initbase d =>
    simp only [PCFOP.exec, initbase_op] at hok
    split at hok
    · cases hok
    · cases hok; exact hown
  | mkptr idx =>
    simp only [PCFOP.exec, mkptr_op] at hok
    split at hok
    · cases hok
    · cases hok
      refine state_same H0 st _ hown rfl ?_
      funext x
      unfold key_of
      simp only [set_value_wires]
      split <;> rfl
  | const d => cases hok; exact const_op_owned H0 st d hown
  | bits d =>
    simp only [PCFOP.exec, bits_op] at hok
    split at hok
    · cases hok
    · cases hok
      exact bits_loop_owned E H0 hfresh _ _ st hown
  | call d => exact call_op_owned E H0 st st' d hfresh hown hok
  | gate d => exact gate_op_owned E H0 st st' d hfresh hown hok
  | copy d =>
    cases hok
    exact copy_loop_owned E H0 _ _ hfresh _ _ st hown
  | indir_copy d =>
    cases hok
    unfold indir_copy_op
    rw [indir_copy_loop_eq]
    exact copy_loop_owned E H0 _ _ hfresh _ _ st hown
  | copy_indir d =>
    cases hok
    unfold copy_indir_op
    rw [copy_indir_loop_eq]
    exact copy_loop_owned E H0 _ _ hfresh _ _ st hown
  | ret =>
    cases hok
    refine state_same H0 st _ hown ?_ ?_
    · simp only [ret_op]; split <;> rfl
    · simp only [ret_op]; split <;> rfl

/-- Every sequence of instructions that runs to its end keeps the ownership
invariant. -/
theorem run_ops_owned (E : PCFEnv) (H0 : List Nat) (hfresh : fresh_copy E H0) :
    ∀ (ops : List PCFOP) (st st' : PCFState), keys_owned H0 st →
      run_ops E ops st = Except.ok st' → keys_owned H0 st' := by
  intro ops
  induction ops with
  | nil => intro st st' h hr; cases hr; exact h
  | cons op ops ih =>
    intro st st' h hr
    simp only [run_ops, dispatch] at hr
    split at hr
    · cases hr
    · rename_i s1 h1
      split at h1
      · cases h1
      · rename_i s2 h2
        cases h1
        refine ih _ st' ?_ hr
        exact state_same H0 s2 _ (exec_owned E H0 hfresh op st s2 h h2) rfl rfl

/-- The bound of a log is at least 1000 and above every live handle, when the
handles live at the start are below 1000. -/
theorem log_bound_above (H0 : List Nat) (hH0 : ∀ h, h ∈ H0 → h < 1000) :
    ∀ log, 1000 ≤ log_bound log ∧ ∀ h, h ∈ live_handles H0 log → h < log_bound log := by
  intro log
  induction log with
  | nil => exact ⟨le_refl _, hH0⟩
  | cons e l ih =>
    obtain ⟨ih1, ih2⟩ := ih
    cases e with
    | deleted k =>
      refine ⟨ih1, ?_⟩
      intro h hh
      simp only [live_handles, List.mem_filter] at hh
      exact ih2 h hh.1
    | copied c r =>
      simp only [log_bound, live_handles, List.mem_cons]
      refine ⟨by omega, ?_⟩
      intro h hh
      rcases hh with rfl | hh
      · omega
      · have := ih2 h hh
        omega
    | called g r => exact ⟨ih1, ih2⟩

/-- The clone function of `freshEnv` returns fresh handles, when the handles live at
the start are below 1000. -/
theorem freshEnv_fresh (H0 : List Nat) (hH0 : ∀ h, h ∈ H0 → h < 1000) :
    fresh_copy freshEnv H0 := by
  intro log k
  obtain ⟨h1, h2⟩ := log_bound_above H0 hH0 log
  refine ⟨?_, ?_⟩
  · show log_bound log ≠ 0
    omega
  · intro hmem
    exact Nat.lt_irrefl _ (h2 _ hmem)

/-- In the sample state the live handles 77, 78 and 79 are exactly the keys held by
wires, each by one wire. -/
theorem demoState_owned : keys_owned [77, 78, 79] demoState := by
  refine ⟨by decide, ?_, ?_⟩
  · intro h
    constructor
    · intro hm
      simp only [live_handles, demoState, List.mem_cons, List.mem_singleton,
        List.not_mem_nil, or_false] at hm
      rcases hm with rfl | rfl | rfl
      · exact ⟨by decide, 8, by decide⟩
      · exact ⟨by decide, 9, by decide⟩
      · exact ⟨by decide, 40, by decide⟩
    · rintro ⟨h0, a, ha⟩
      simp only [key_of, demoState] at ha
      simp only [live_handles, demoState, List.mem_cons, List.mem_singleton,
        List.not_mem_nil, or_false]
      split_ifs at ha <;> simp only [] at ha <;> omega
  · intro a b hab ha0
    simp only [key_of, demoState] at hab ha0
    split_ifs at hab ha0 <;> simp only [] at hab ha0 <;> omega

/-- Claim C17: key handles are modelled explicitly through the log of external
calls: `copy_key` returns a fresh live handle, `delete_key` ends one, the keys of the
callback and the constant keys are borrowed.  `const_op` calls `delete_key` on the
old key of its wire before clearing it, and a `gate_op` that completes has called
`delete_key` on the old key of its result wire before any other key call.  If
before an operation the live handles are exactly the keys held by wires, each held
by one wire, the same is true after the operation when it completes (for const,
bits, gate, the calls, the three copies and all other operations), and after every
sequence of instructions that runs to its end, in particular every sequence of
const and gate assignments. -/
theorem key_handles_conserved (E : PCFEnv) (H0 : List Nat) (hfresh : fresh_copy E H0) :
    (∀ (st : PCFState) (d : const_op_data),
        (st.wires (u32 (d.dest + st.base))).keydata ≠ 0 →
        (const_op st d).log
          = Event.deleted (st.wires (u32 (d.dest + st.base))).keydata :: st.log)
    ∧ (∀ (st st' : PCFState) (d : PCFGate), gate_op E st d = Except.ok st' →
        (st.wires (u32 (d.reswire + st.base))).keydata ≠ 0 →
        ∃ later, st'.log
          = later ++ Event.deleted (st.wires (u32 (d.reswire + st.base))).keydata :: st.log)
    ∧ (∀ (op : PCFOP) (st st' : PCFState), keys_owned H0 st →
        op.exec E st = Except.ok st' → keys_owned H0 st')
    ∧ (∀ (ops : List PCFOP) (st st' : PCFState), keys_owned H0 st →
        run_ops E ops st = Except.ok st' → keys_owned H0 st') := by
  refine ⟨?_, ?_, fun op st st' => exec_owned E H0 hfresh op st st',
    run_ops_owned E H0 hfresh⟩
  · intro st d hk
    simp [const_op, delete_if_set, hk]
  · intro st st' d hok hk
    have hl : ((delete_if_set st (u32 (d.reswire + st.base))).set_keydata
        (u32 (d.reswire + st.base)) 0).log
          = Event.deleted (st.wires (u32 (d.reswire + st.base))).keydata :: st.log := by
      simp [delete_if_set, hk]
    revert hok
    unfold gate_op
    dsimp only
    split_ifs <;> intro hok <;> cases hok
    · rw [← hl]
      exact ⟨[_, _], rfl⟩
    · rw [← hl]
      exact ⟨[_], rfl⟩

/-- Witness for C17: on the sample state with the allocating clone function, the
sample sequence (a constant load into wire 8, which holds key 77, a delegated gate
on the wires 9 and 40 and a copy of its result) runs to the end and keeps the
ownership invariant. -/
theorem key_handles_conserved_witness :
    ∃ st', run_ops freshEnv demoOps demoState = Except.ok st'
      ∧ keys_owned [77, 78, 79] st' :=
  ⟨_, rfl, (key_handles_conserved freshEnv [77, 78, 79]
    (freshEnv_fresh [77, 78, 79] (by decide))).2.2.2 demoOps demoState _ demoState_owned rfl⟩

end PCF
